import Mathlib

/-!
Verification of the Pike-VM regex interpreter (`src/interpreter.rs`,
`src/interpreter/thread.rs`, instruction set from `src/regex.rs`).

The Rust code is embedded shallowly:

* Machine words of the thread-list bitset are `Nat` values kept below `2 ^ 64`
  (the bit operations used by the code never overflow a `u64`, which the
  well-formedness predicate `wfTL` records).
* Rust `Vec` indexing panics when out of bounds, so every operation that
  indexes a vector is modelled in `Option`, with `none` standing for a panic.
* The `while` loop of `Executor::execution_step` has no syntactic bound, so it
  is modelled with explicit fuel; `VMRes.fuelOut` reports that the given
  iteration budget was exhausted (the Rust loop would still be running).
* Iteration of `ThreadListIter` is fused with instruction dispatch in
  `dispatchFrom`, exactly as the lazy Rust `for` loop interleaves `next()`
  with the body: an early `return true` on `Match` prevents any later
  iterator step (and any later panic) from happening.
-/

namespace RegexVM

/-- Symbols are Rust `char` values. -/
abbrev Symbol := Char

/-- Instruction set, from `src/regex.rs` (`pub enum Instruction`). -/
inductive Instruction where
  | Match : Instruction
  | Die : Instruction
  | Consume : Instruction
  | Char (c : Symbol) (inverted : Bool) : Instruction
  | CharOption (c : Symbol) (dest : Nat) : Instruction
  | Range (c_min c_max : Symbol) (inverted : Bool) : Instruction
  | RangeOption (c_min c_max : Symbol) (dest : Nat) : Instruction
  | Jump (dest : Nat) : Instruction
  | Split (dest1 dest2 : Nat) : Instruction
deriving DecidableEq

/-- Bitset of pending program counters, from `struct ThreadList` in
`src/interpreter.rs`: a capacity (`size`) and a vector of 64-bit words. -/
structure ThreadList where
  size : Nat
  threads : List Nat
deriving DecidableEq

/-- `ThreadList::new(capacity)`: `capacity.div_ceil(64)` zero words. -/
def ThreadList.new (capacity : Nat) : ThreadList :=
  ⟨capacity, List.replicate ((capacity + 63) / 64) 0⟩

/-- `ThreadList::add_thread(pc)`.  The Rust code drops only `pc > self.size`
and then writes `self.threads[pc / 64]`, a panicking index; `none` models the
panic. -/
def ThreadList.add_thread (tl : ThreadList) (pc : Nat) : Option ThreadList :=
  if pc > tl.size then
    some tl
  else
    let threads_index := pc / 64
    let thread_bit_index := pc - threads_index * 64
    match tl.threads.get? threads_index with
    | none => none
    | some w =>
        some ⟨tl.size, tl.threads.set threads_index (w ||| (1 <<< thread_bit_index))⟩

/-- `ThreadList::clear()`: zero every word. -/
def ThreadList.clear (tl : ThreadList) : ThreadList :=
  ⟨tl.size, tl.threads.map (fun _ => 0)⟩

/-- `ThreadList::is_empty()`: all words are zero. -/
def ThreadList.is_empty (tl : ThreadList) : Bool :=
  tl.threads.all (fun w => w == 0)

/-- Helper for `trailingZeros`: the first argument is structural gas, always
called with gas at least the value inspected, so the gas-out branch is never
reached on the nonzero words the code applies it to. -/
def trailingZerosAux : Nat → Nat → Nat
  | 0, _ => 0
  | gas + 1, m =>
      if m % 2 = 1 then 0
      else trailingZerosAux gas (m / 2) + 1

/-- Count of low zero bits, as computed by Rust `u64::trailing_zeros` (the
code only calls it on nonzero words). -/
def trailingZeros (n : Nat) : Nat :=
  trailingZerosAux n n

/-- Repeatedly calling `ThreadListIter::next` from `index` until it returns
`None`, collecting the yielded program counters.  The Rust loop runs while
`index <= size`, reads `threads[index / 64]` (a panicking index, modelled by
`none`), skips zero remainders word by word, and otherwise yields the next
set bit.  `gas` is structural recursion gas; since `index` strictly
increases, `gas = size + 1 - index` always suffices and the gas-out branch is
unreachable from `ThreadList.iter`. -/
def ThreadList.iterFrom (tl : ThreadList) (gas index : Nat) : Option (List Nat) :=
  if index ≤ tl.size then
    match gas with
    | 0 => none
    | gas + 1 =>
      let threads_index := index / 64
      match tl.threads.get? threads_index with
      | none => none
      | some elem =>
          let thread_bit_index := index - threads_index * 64
          let remainder := elem >>> thread_bit_index
          if remainder = 0 then
            tl.iterFrom gas ((threads_index + 1) * 64)
          else
            let next_index := trailingZeros remainder + thread_bit_index + threads_index * 64
            match tl.iterFrom gas (next_index + 1) with
            | none => none
            | some rest => some (next_index :: rest)
  else
    some []

/-- Full drain of `ThreadList::iter()` from index 0. -/
def ThreadList.iter (tl : ThreadList) : Option (List Nat) :=
  tl.iterFrom (tl.size + 1) 0

/-- Dispatch of one thread, the body of the `for` loop of
`Executor::_execution_step`: given the instruction at the thread's `pc` and
the current input character, return `true` on `Match`, otherwise update the
`temp` (same input position) and `next` (following input position) lists.
`consume_and_step` adds to `next_threads`; `step_execution` adds to
`temp_threads`.  `none` models a panicking `add_thread`. -/
def execInst (inst : Instruction) (pc : Nat) (input_char : Option Symbol)
    (temp_threads next_threads : ThreadList) :
    Option (Bool × ThreadList × ThreadList) :=
  match inst, input_char with
  | .Match, _ => some (true, temp_threads, next_threads)
  | .Die, _ => some (false, temp_threads, next_threads)
  | .Consume, some _ =>
      (next_threads.add_thread (pc + 1)).map (fun n => (false, temp_threads, n))
  | .Consume, none => some (false, temp_threads, next_threads)
  | .Char _ _, none => some (false, temp_threads, next_threads)
  | .Char c false, some input_c =>
      if input_c = c then
        (next_threads.add_thread (pc + 1)).map (fun n => (false, temp_threads, n))
      else some (false, temp_threads, next_threads)
  | .Char c true, some input_c =>
      if input_c ≠ c then
        (temp_threads.add_thread (pc + 1)).map (fun t => (false, t, next_threads))
      else some (false, temp_threads, next_threads)
  | .CharOption _ _, none => some (false, temp_threads, next_threads)
  | .CharOption c dest, some input_c =>
      if input_c = c then
        (next_threads.add_thread dest).map (fun n => (false, temp_threads, n))
      else
        (temp_threads.add_thread (pc + 1)).map (fun t => (false, t, next_threads))
  | .Range _ _ _, none => some (false, temp_threads, next_threads)
  | .Range c_min c_max false, some c =>
      if c_min ≤ c ∧ c ≤ c_max then
        (next_threads.add_thread (pc + 1)).map (fun n => (false, temp_threads, n))
      else some (false, temp_threads, next_threads)
  | .Range c_min c_max true, some c =>
      if c < c_min ∨ c_max < c then
        (temp_threads.add_thread (pc + 1)).map (fun t => (false, t, next_threads))
      else some (false, temp_threads, next_threads)
  | .RangeOption _ _ _, none => some (false, temp_threads, next_threads)
  | .RangeOption c_min c_max dest, some c =>
      if c_min ≤ c ∧ c ≤ c_max then
        (next_threads.add_thread dest).map (fun n => (false, temp_threads, n))
      else
        (temp_threads.add_thread (pc + 1)).map (fun t => (false, t, next_threads))
  | .Jump dest, _ =>
      (temp_threads.add_thread dest).map (fun t => (false, t, next_threads))
  | .Split dest1 dest2, _ =>
      match temp_threads.add_thread dest1 with
      | none => none
      | some t1 => (t1.add_thread dest2).map (fun t => (false, t, next_threads))

/-- The `for thread in self.current_threads.iter()` loop of
`Executor::_execution_step`, fused with the iterator so that the early
`return true` on `Match` stops iteration exactly where the Rust loop does.
`none` models any panic: a thread-list word read out of bounds, a program
index out of bounds (`self.program[thread.pc]`), or a panicking
`add_thread`.  The first `Nat` is structural recursion gas: the scanned index
strictly increases, so gas `size + 1 - index` always suffices, and every call
below passes `size + 1`, making the gas-out branch unreachable. -/
def dispatchFrom (program : List Instruction) (input_char : Option Symbol)
    (current : ThreadList) (gas index : Nat)
    (temp_threads next_threads : ThreadList) :
    Option (Bool × ThreadList × ThreadList) :=
  if index ≤ current.size then
    match gas with
    | 0 => none
    | gas + 1 =>
      let threads_index := index / 64
      match current.threads.get? threads_index with
      | none => none
      | some elem =>
          let thread_bit_index := index - threads_index * 64
          let remainder := elem >>> thread_bit_index
          if remainder = 0 then
            dispatchFrom program input_char current gas ((threads_index + 1) * 64)
              temp_threads next_threads
          else
            let pc := trailingZeros remainder + thread_bit_index + threads_index * 64
            match program.get? pc with
            | none => none
            | some inst =>
                match execInst inst pc input_char temp_threads next_threads with
                | none => none
                | some (true, t, n) => some (true, t, n)
                | some (false, t, n) =>
                    dispatchFrom program input_char current gas (pc + 1) t n
  else
    some (false, temp_threads, next_threads)

/-- Result of a fueled VM computation: a value, a Rust panic, or an exhausted
iteration budget (the unbounded Rust loop would still be running). -/
inductive VMRes (α : Type) where
  | ok (a : α) : VMRes α
  | panicked : VMRes α
  | fuelOut : VMRes α
deriving DecidableEq

/-- The `while !self.current_threads.is_empty()` loop of
`Executor::execution_step`.  Each iteration dispatches every thread of
`current` (with a fresh all-zero temp list: after the Rust
`clear`/`mem::swap`, the temp list entering an iteration is always the
all-zero list of `program.len()` capacity), then continues with the temp list
as the new current.  Returns `ok none` when a `Match` fired ,
`ok (some next)` at quiescence. -/
def epsilonLoop (program : List Instruction) (input_char : Option Symbol)
    (fuel : Nat) (current next_threads : ThreadList) : VMRes (Option ThreadList) :=
  if current.is_empty then .ok (some next_threads)
  else
    match fuel with
    | 0 => .fuelOut
    | f + 1 =>
        match dispatchFrom program input_char current (current.size + 1) 0
            (ThreadList.new program.length) next_threads with
        | none => .panicked
        | some (true, _, _) => .ok none
        | some (false, temp, next2) => epsilonLoop program input_char f temp next2

/-- `Executor::execution_step(input_char)`: seed thread 0 when an input
character is present, run the epsilon loop (with fresh temp and next lists of
capacity `program.len()`), and at quiescence swap the accumulated next list
into current.  The returned thread list is the executor state for the next
step; on a `Match` it is irrelevant (the caller returns at once). -/
def execution_step (program : List Instruction) (fuel : Nat)
    (input_char : Option Symbol) (current : ThreadList) :
    VMRes (Bool × ThreadList) :=
  match (if input_char.isSome then current.add_thread 0 else some current) with
  | none => .panicked
  | some seeded =>
      match epsilonLoop program input_char fuel seeded (ThreadList.new program.length) with
      | .panicked => .panicked
      | .fuelOut => .fuelOut
      | .ok none => .ok (true, seeded)
      | .ok (some next2) => .ok (false, next2)

/-- `Executor::run(input)`: one execution step per input character, then a
final step with no input character. -/
def run (program : List Instruction) (fuel : Nat) :
    List Symbol → ThreadList → VMRes Bool
  | [], current =>
      match execution_step program fuel none current with
      | .ok (b, _) => .ok b
      | .panicked => .panicked
      | .fuelOut => .fuelOut
  | c :: rest, current =>
      match execution_step program fuel (some c) current with
      | .ok (true, _) => .ok true
      | .ok (false, cur2) => run program fuel rest cur2
      | .panicked => .panicked
      | .fuelOut => .fuelOut

/-- `search(prog, input)` from `src/interpreter.rs`: build an executor whose
current list has capacity `prog.len()` and run it.  `fuel` bounds the number
of iterations of each inner epsilon loop (the Rust loop is unbounded). -/
def search (program : List Instruction) (fuel : Nat) (input : List Symbol) :
    VMRes Bool :=
  run program fuel input (ThreadList.new program.length)

/-- Bit `q` of the thread-list bitset: whether program counter `q` is
recorded as pending. -/
def memBit (tl : ThreadList) (q : Nat) : Bool :=
  (tl.threads.getD (q / 64) 0).testBit (q % 64)

/-- Well-formedness of a thread list as constructed by `ThreadList::new` and
preserved by `add_thread`: the word vector has exactly `size.div_ceil 64`
entries and every word fits in a `u64`. -/
def wfTL (tl : ThreadList) : Prop :=
  tl.threads.length = (tl.size + 63) / 64 ∧ ∀ w ∈ tl.threads, w < 2 ^ 64

instance (tl : ThreadList) : Decidable (wfTL tl) := by
  unfold wfTL
  infer_instance


/-- Validity of a program as assumed by the VM (the loader's contract): every
branch destination is a program index and the final instruction is `Match`. -/
def okDests (len : Nat) : Instruction → Prop
  | .CharOption _ dest => dest < len
  | .RangeOption _ _ dest => dest < len
  | .Jump dest => dest < len
  | .Split dest1 dest2 => dest1 < len ∧ dest2 < len
  | _ => True

instance (len : Nat) (inst : Instruction) : Decidable (okDests len inst) := by
  cases inst <;> simp only [okDests] <;> infer_instance

/-- A validated program: in-range destinations, terminated by `Match`. -/
def validProgram (program : List Instruction) : Prop :=
  (∀ inst ∈ program, okDests program.length inst) ∧
    program.getLast? = some .Match

instance (program : List Instruction) : Decidable (validProgram program) := by
  unfold validProgram; infer_instance

/-- Capture vector of one logical thread, from `struct ThreadData` in
`src/interpreter/thread.rs`. -/
structure ThreadData where
  match_indices : List Nat
deriving DecidableEq

/-- `ThreadData::new()`: two slots (overall match start and end). -/
def ThreadData.new : ThreadData := ⟨[0, 0]⟩

/-- Bag of capture vectors of all threads at one program counter, from
`struct ThreadGroup` in `src/interpreter/thread.rs` (the `LinkedList` is a
Lean list). -/
structure ThreadGroup where
  pc : Nat
  data : List ThreadData
deriving DecidableEq

/-- `ThreadGroup::new(pc)`. -/
def ThreadGroup.new (pc : Nat) : ThreadGroup := ⟨pc, [ThreadData.new]⟩

/-- `ThreadGroup::save(match_index, char_index)`: write `char_index` into
slot `match_index` of every capture vector.  Rust indexes
`match_indices[match_index]`, which panics when a vector is too short;
`none` models the panic. -/
def ThreadGroup.save (g : ThreadGroup) (match_index char_index : Nat) :
    Option ThreadGroup :=
  if g.data.all (fun td => match_index < td.match_indices.length) then
    some ⟨g.pc, g.data.map (fun td => ⟨td.match_indices.set match_index char_index⟩)⟩
  else none

/-- `ThreadGroup::get_match_data(match_index)`: the
`(match_indices[2i], match_indices[2i+1])` pair of every capture vector, in
bag order.  Rust vector indexing panics when out of range; `none` models the
panic. -/
def ThreadGroup.get_match_data (g : ThreadGroup) (match_index : Nat) :
    Option (List (Nat × Nat)) :=
  if g.data.all (fun td => match_index * 2 + 1 < td.match_indices.length) then
    some (g.data.map (fun td =>
      (td.match_indices.getD (match_index * 2) 0,
        td.match_indices.getD (match_index * 2 + 1) 0)))
  else none

/-- Modelled from the spec: the match-selection fold of the driver, spec
section 4.4 step 5.  The `Option<(usize, usize)>`-returning driver invoked by
`main.rs` is not present under `src/` (the `search` in `src/interpreter.rs`
returns only a `bool`), so the reduction of the accumulated candidate pool to
the reported match is modelled from the spec text: a left-to-right fold that
replaces the incumbent only on strictly greater `end - start`, hence keeps
the earliest-discovered candidate on ties, and reports no match on an empty
pool. -/
def selectStep (best : Option (Nat × Nat)) (c : Nat × Nat) : Option (Nat × Nat) :=
  match best with
  | none => some c
  | some b => if b.2 - b.1 < c.2 - c.1 then some c else some b

/-- Modelled from the spec, continued: the driver folds the candidate pool
left-to-right with `selectStep` starting from no candidate. -/
def selectMatch (candidates : List (Nat × Nat)) : Option (Nat × Nat) :=
  candidates.foldl selectStep none

/-- One comparison step of the selection fold, on committed candidates. -/
def selectBetter (best c : Nat × Nat) : Nat × Nat :=
  if best.2 - best.1 < c.2 - c.1 then c else best

/-- Epsilon successors of an instruction at `pc`: the pcs that
`_execution_step` may add to the same-position temp list (`step_execution`)
while dispatching this instruction, over all possible input characters.
Additions to the next list (`consume_and_step`) are not epsilon
transitions. -/
def epsSuccs (pc : Nat) : Instruction → List Nat
  | .Char _ true => [pc + 1]
  | .CharOption _ _ => [pc + 1]
  | .Range _ _ true => [pc + 1]
  | .RangeOption _ _ _ => [pc + 1]
  | .Jump dest => [dest]
  | .Split dest1 dest2 => [dest1, dest2]
  | _ => []

/-- A fresh thread list of the given capacity after a sequence of
`add_thread` calls (`none` as soon as one of them panics). -/
def buildTL (capacity : Nat) (adds : List Nat) : Option ThreadList :=
  adds.foldl (fun acc pc => acc.bind (fun tl => tl.add_thread pc))
    (some (ThreadList.new capacity))

/-- Consuming successors of an instruction at `pc`: the pcs that
`_execution_step` may add to the next-position list (`consume_and_step`)
while dispatching this instruction, over all possible input characters. -/
def consSuccs (pc : Nat) : Instruction → List Nat
  | .Consume => [pc + 1]
  | .Char _ false => [pc + 1]
  | .CharOption _ dest => [dest]
  | .Range _ _ false => [pc + 1]
  | .RangeOption _ _ dest => [dest]
  | _ => []

/-- List-level view of the dispatch loop: process the given pcs in order
(they will be the sorted set bits of the current list), with early return on
`Match` and panic propagation.  `dispatchFrom` is proved to reduce to this
whenever the iterator itself would succeed. -/
def processList (program : List Instruction) (input_char : Option Symbol) :
    List Nat → ThreadList → ThreadList → Option (Bool × ThreadList × ThreadList)
  | [], temp_threads, next_threads => some (false, temp_threads, next_threads)
  | pc :: rest, temp_threads, next_threads =>
      match program.get? pc with
      | none => none
      | some inst =>
          match execInst inst pc input_char temp_threads next_threads with
          | none => none
          | some (true, t, n) => some (true, t, n)
          | some (false, t, n) => processList program input_char rest t n

/-- What a successful `execInst` guarantees about its outputs: sizes and
word counts are preserved, well-formedness is preserved, recorded bits are
preserved, any new bit is at most the capacity of its list, and the returned
flag is true exactly for `Match`. -/
def ExtendsOut (inst : Instruction) (temp next : ThreadList)
    (b : Bool) (t n : ThreadList) : Prop :=
  t.size = temp.size ∧ n.size = next.size ∧
  t.threads.length = temp.threads.length ∧
  n.threads.length = next.threads.length ∧
  (wfTL temp → wfTL t) ∧ (wfTL next → wfTL n) ∧
  (∀ q, memBit temp q = true → memBit t q = true) ∧
  (∀ q, memBit next q = true → memBit n q = true) ∧
  (∀ q, memBit t q = true → memBit temp q = true ∨ q ≤ temp.size) ∧
  (∀ q, memBit n q = true → memBit next q = true ∨ q ≤ next.size) ∧
  (b = true ↔ inst = .Match)

/-! ### Selection fold: supporting lemmas -/

theorem foldl_selectBetter_spec (l : List (Nat × Nat)) (b : Nat × Nat) :
    (l.foldl selectBetter b = b ∧ ∀ c ∈ l, c.2 - c.1 ≤ b.2 - b.1) ∨
    (∃ l1 m l2, l = l1 ++ m :: l2 ∧ l.foldl selectBetter b = m ∧
      b.2 - b.1 < m.2 - m.1 ∧ (∀ c ∈ l1, c.2 - c.1 < m.2 - m.1) ∧
      (∀ c ∈ l2, c.2 - c.1 ≤ m.2 - m.1)) := by
  induction l generalizing b with
  | nil => exact Or.inl ⟨rfl, by simp⟩
  | cons d rest ih =>
    rw [List.foldl_cons]
    by_cases hd : b.2 - b.1 < d.2 - d.1
    · have hsel : selectBetter b d = d := by simp [selectBetter, hd]
      rw [hsel]
      rcases ih d with ⟨heq, hle⟩ | ⟨l1, m, l2, hsplit, heq, hlt, hl1, hl2⟩
      · exact Or.inr ⟨[], d, rest, by simp, heq, hd, by simp, hle⟩
      · refine Or.inr ⟨d :: l1, m, l2, by rw [hsplit]; rfl, heq,
          lt_trans hd hlt, ?_, hl2⟩
        intro c hc
        rcases List.mem_cons.1 hc with rfl | hc
        · exact hlt
        · exact hl1 c hc
    · have hsel : selectBetter b d = b := by simp [selectBetter, hd]
      rw [hsel]
      have hdb : d.2 - d.1 ≤ b.2 - b.1 := Nat.le_of_not_lt hd
      rcases ih b with ⟨heq, hle⟩ | ⟨l1, m, l2, hsplit, heq, hlt, hl1, hl2⟩
      · refine Or.inl ⟨heq, ?_⟩
        intro c hc
        rcases List.mem_cons.1 hc with rfl | hc
        · exact hdb
        · exact hle c hc
      · refine Or.inr ⟨d :: l1, m, l2, by rw [hsplit]; rfl, heq, hlt, ?_, hl2⟩
        intro c hc
        rcases List.mem_cons.1 hc with rfl | hc
        · exact lt_of_le_of_lt hdb hlt
        · exact hl1 c hc

theorem selectStep_some (b c : Nat × Nat) :
    selectStep (some b) c = some (selectBetter b c) := by
  show (if b.2 - b.1 < c.2 - c.1 then some c else some b)
      = some (if b.2 - b.1 < c.2 - c.1 then c else b)
  split <;> rfl

theorem selectMatch_foldl_some (l : List (Nat × Nat)) (b : Nat × Nat) :
    l.foldl selectStep (some b) = some (l.foldl selectBetter b) := by
  induction l generalizing b with
  | nil => rfl
  | cons d rest ih =>
    rw [List.foldl_cons, selectStep_some, ih, List.foldl_cons]

theorem selectMatch_cons (d : Nat × Nat) (rest : List (Nat × Nat)) :
    selectMatch (d :: rest) = some (rest.foldl selectBetter d) := by
  unfold selectMatch
  rw [List.foldl_cons]
  exact selectMatch_foldl_some rest d

/-- C1: the driver returns no match exactly on an empty candidate pool, and
otherwise returns a candidate `m` of the pool such that every candidate has
`end - start` at most that of `m`, and every candidate discovered before `m`
has strictly smaller `end - start` (so ties keep the earliest-discovered
candidate of the left-to-right fold). -/
theorem selectMatch_longest_earliest (cands : List (Nat × Nat)) :
    (selectMatch cands = none ↔ cands = []) ∧
    (∀ m, selectMatch cands = some m →
      ∃ l1 l2, cands = l1 ++ m :: l2 ∧
        (∀ c ∈ l1, c.2 - c.1 < m.2 - m.1) ∧
        (∀ c ∈ cands, c.2 - c.1 ≤ m.2 - m.1)) := by
  cases cands with
  | nil =>
    refine ⟨by simp [selectMatch], ?_⟩
    intro m hm
    simp [selectMatch] at hm
  | cons d rest =>
    have hfold := selectMatch_cons d rest
    refine ⟨⟨fun h => absurd (hfold ▸ h) (by simp), fun h => by cases h⟩, ?_⟩
    intro m hm
    rw [hfold] at hm
    have hm' : rest.foldl selectBetter d = m := Option.some.inj hm
    rcases foldl_selectBetter_spec rest d with ⟨heq, hle⟩ |
      ⟨l1, mm, l2, hsplit, heq, hlt, hl1, hl2⟩
    · have hdm : d = m := heq ▸ hm'
      subst hdm
      refine ⟨[], rest, by simp, by simp, ?_⟩
      intro c hc
      rcases List.mem_cons.1 hc with rfl | hc
      · exact le_refl _
      · exact hle c hc
    · have hmm : mm = m := heq ▸ hm'
      subst hmm
      refine ⟨d :: l1, l2, by rw [hsplit]; rfl, ?_, ?_⟩
      · intro c hc
        rcases List.mem_cons.1 hc with rfl | hc
        · exact hlt
        · exact hl1 c hc
      · intro c hc
        rcases List.mem_cons.1 hc with rfl | hc
        · exact le_of_lt hlt
        · rw [hsplit] at hc
          rcases List.mem_append.1 hc with hc | hc
          · exact le_of_lt (hl1 c hc)
          · rcases List.mem_cons.1 hc with rfl | hc
            · exact le_refl _
            · exact hl2 c hc

theorem selectMatch_longest_earliest_witness :
    ∃ l1 l2, ([(2, 3), (0, 4), (5, 9), (1, 2)] : List (Nat × Nat))
        = l1 ++ (0, 4) :: l2 ∧
      (∀ c ∈ l1, c.2 - c.1 < (0, 4).2 - (0, 4).1) ∧
      (∀ c ∈ ([(2, 3), (0, 4), (5, 9), (1, 2)] : List (Nat × Nat)),
        c.2 - c.1 ≤ (0, 4).2 - (0, 4).1) :=
  (selectMatch_longest_earliest [(2, 3), (0, 4), (5, 9), (1, 2)]).2 (0, 4) (by decide)

/-! ### Capture groups (C8) -/

/-- C8: `save(slot, idx)` writes `idx` into position `slot` of every capture
vector of the group (leaving all other positions and the group structure
unchanged), and `get_match_data i` returns exactly the
`(captures[2i], captures[2i+1])` pair of each capture vector, one per vector
in bag order.  The hypotheses state that the accessed slots exist, which the
invariant of spec section 4.2 (all capture vectors have the fixed length
determined by the program) guarantees; Rust vector indexing would panic
otherwise. -/
theorem save_get_match_data_spec (g : ThreadGroup) (slot idx i : Nat)
    (h1 : ∀ td ∈ g.data, slot < td.match_indices.length)
    (h2 : ∀ td ∈ g.data, i * 2 + 1 < td.match_indices.length) :
    (∃ g', g.save slot idx = some g' ∧ g'.pc = g.pc ∧
      g'.data.length = g.data.length ∧
      (∀ k td, g.data.get? k = some td → ∃ td', g'.data.get? k = some td' ∧
        td'.match_indices.length = td.match_indices.length ∧
        td'.match_indices.get? slot = some idx ∧
        ∀ j, j ≠ slot → td'.match_indices.get? j = td.match_indices.get? j)) ∧
    (∃ ps, g.get_match_data i = some ps ∧ ps.length = g.data.length ∧
      ∀ k td, g.data.get? k = some td →
        ps.get? k = some (td.match_indices.getD (i * 2) 0,
          td.match_indices.getD (i * 2 + 1) 0)) := by
  constructor
  · have hall : (g.data.all fun td => slot < td.match_indices.length) = true := by
      simp only [List.all_eq_true, decide_eq_true_eq]
      exact h1
    refine ⟨⟨g.pc, g.data.map (fun td => ⟨td.match_indices.set slot idx⟩)⟩,
      ?_, rfl, by simp, ?_⟩
    · unfold ThreadGroup.save
      rw [if_pos hall]
    · intro k td htd
      have hmem : td ∈ g.data := List.get?_mem htd
      have htd' : g.data[k]? = some td := by
        rw [← List.get?_eq_getElem?]
        exact htd
      refine ⟨⟨td.match_indices.set slot idx⟩, ?_, by simp, ?_, ?_⟩
      · rw [List.get?_eq_getElem?, List.getElem?_map, htd']
        rfl
      · rw [List.get?_eq_getElem?]
        exact List.getElem?_set_self (h1 td hmem)
      · intro j hj
        rw [List.get?_eq_getElem?, List.get?_eq_getElem?]
        exact List.getElem?_set_ne (Ne.symm hj)
  · have hall : (g.data.all fun td => i * 2 + 1 < td.match_indices.length) = true := by
      simp only [List.all_eq_true, decide_eq_true_eq]
      exact h2
    refine ⟨g.data.map (fun td =>
      (td.match_indices.getD (i * 2) 0, td.match_indices.getD (i * 2 + 1) 0)),
      ?_, by simp, ?_⟩
    · unfold ThreadGroup.get_match_data
      rw [if_pos hall]
    · intro k td htd
      have htd' : g.data[k]? = some td := by
        rw [← List.get?_eq_getElem?]
        exact htd
      rw [List.get?_eq_getElem?, List.getElem?_map, htd']
      rfl

theorem save_get_match_data_witness :
    (∃ g', ThreadGroup.save ⟨7, [⟨[0, 0]⟩, ⟨[5, 6]⟩]⟩ 1 9 = some g' ∧
      g'.pc = (ThreadGroup.mk 7 [⟨[0, 0]⟩, ⟨[5, 6]⟩]).pc ∧
      g'.data.length = (ThreadGroup.mk 7 [⟨[0, 0]⟩, ⟨[5, 6]⟩]).data.length ∧
      (∀ k td, (ThreadGroup.mk 7 [⟨[0, 0]⟩, ⟨[5, 6]⟩]).data.get? k = some td →
        ∃ td', g'.data.get? k = some td' ∧
        td'.match_indices.length = td.match_indices.length ∧
        td'.match_indices.get? 1 = some 9 ∧
        ∀ j, j ≠ 1 → td'.match_indices.get? j = td.match_indices.get? j)) ∧
    (∃ ps, ThreadGroup.get_match_data ⟨7, [⟨[0, 0]⟩, ⟨[5, 6]⟩]⟩ 0 = some ps ∧
      ps.length = (ThreadGroup.mk 7 [⟨[0, 0]⟩, ⟨[5, 6]⟩]).data.length ∧
      ∀ k td, (ThreadGroup.mk 7 [⟨[0, 0]⟩, ⟨[5, 6]⟩]).data.get? k = some td →
        ps.get? k = some (td.match_indices.getD (0 * 2) 0,
          td.match_indices.getD (0 * 2 + 1) 0)) :=
  save_get_match_data_spec ⟨7, [⟨[0, 0]⟩, ⟨[5, 6]⟩]⟩ 1 9 0 (by decide) (by decide)

/-! ### Concrete refutations and panic evaluations (C2 to C7, C9, C10) -/

/-- C2, counterexample: for an inverted `Range` whose test succeeds (symbol
present and outside the range), the claim places the successor `pc + 1` in
the next-position list with the cursor advancing; the code instead places it
in the same-position temp list (`step_execution`), leaving the next list
untouched.  Concretely at `Range('a','a',inverted)` with input symbol 'b':
bit 1 of the temp list is set and bit 1 of the next list is not. -/
theorem range_inverted_claim_cex :
    execInst (Instruction.Range 'a' 'a' true) 0 (some 'b')
        (ThreadList.new 2) (ThreadList.new 2) =
      some (false, ⟨2, [2]⟩, ⟨2, [0]⟩) ∧
    memBit ⟨2, [2]⟩ 1 = true ∧ memBit ⟨2, [0]⟩ 1 = false := by decide

/-- C3, counterexample: for `RangeOption` (the spec's `RangeBranch`) with the
symbol inside the range, the claim enqueues `dest` in the same-position temp
list without consuming; the code instead performs a consuming transition
(`consume_and_step`), placing `dest` in the next-position list.  Concretely
at `RangeOption('a','z',3)` with input symbol 'b': bit 3 of the next list is
set and the temp list stays empty. -/
theorem rangeOption_claim_cex :
    execInst (Instruction.RangeOption 'a' 'z' 3) 0 (some 'b')
        (ThreadList.new 5) (ThreadList.new 5) =
      some (false, ⟨5, [0]⟩, ⟨5, [8]⟩) ∧
    memBit ⟨5, [8]⟩ 3 = true ∧ memBit ⟨5, [0]⟩ 3 = false := by decide

/-- C4, counterexample: `[Jump 0, Match]` is a valid program (destinations in
range, final instruction `Match`), yet the inner epsilon loop does not reach
an empty current list within `|p| = 2` iterations: starting from the seeded
current list at an input position, the loop exhausts a fuel budget of 2 (pc 0
keeps re-enqueuing pc 0, because deduplication by PC acts only within a
single generation, not across the clear-and-swap).  The whole search runs
out of fuel as well. -/
theorem epsilon_loop_bound_cex :
    validProgram [Instruction.Jump 0, Instruction.Match] ∧
    epsilonLoop [Instruction.Jump 0, Instruction.Match] (some 'a') 2
      ⟨2, [1]⟩ (ThreadList.new 2) = .fuelOut ∧
    search [Instruction.Jump 0, Instruction.Match] 2 ['a'] = .fuelOut := by
  refine ⟨by decide, by decide, by decide⟩

/-- C5, counterexample: `search([Match], "")` reports no match, not a match
at `(0, 0)`: with an empty input no execution step ever has an input
character, so the initial thread is never seeded and the final no-input step
starts from an empty current list. -/
theorem search_empty_regex_cex :
    search [Instruction.Match] 1 [] = .ok false := by decide

/-- C5, amended: on the empty input `search([Match], s)` reports no match
(for every fuel budget); on any nonempty input it reports a match at the very
first execution step. -/
theorem search_empty_regex_amended :
    (∀ fuel, search [Instruction.Match] fuel [] = .ok false) ∧
    (∀ fuel c cs, 1 ≤ fuel →
      search [Instruction.Match] fuel (c :: cs) = .ok true) := by
  constructor
  · intro fuel
    cases fuel with
    | zero => rfl
    | succ f => rfl
  · intro fuel c cs hf
    obtain ⟨f, rfl⟩ : ∃ f, fuel = f + 1 := ⟨fuel - 1, by omega⟩
    rfl

theorem search_empty_regex_amended_witness :
    search [Instruction.Match] 1 [] = .ok false ∧
    search [Instruction.Match] 1 ['a'] = .ok true :=
  ⟨search_empty_regex_amended.1 1,
    search_empty_regex_amended.2 1 'a' [] (by decide)⟩

/-- C6: `add_thread` does not discard every out-of-capacity pc.  The guard is
`pc > self.size`, so a pc equal to the capacity slips through: with capacity
2 the list is mutated (bit 2 becomes set, later yielded by the iterator), and
with capacity 64 the word index `64 / 64 = 1` is out of bounds for the
one-word vector, an index-out-of-bounds panic (`none`) rather than a silent
drop.  Strictly larger pcs are indeed dropped. -/
theorem add_thread_capacity_boundary_bug :
    (ThreadList.new 64).add_thread 64 = none ∧
    (ThreadList.new 2).add_thread 2 = some ⟨2, [4]⟩ ∧
    memBit ⟨2, [4]⟩ 2 = true ∧
    (ThreadList.new 2).add_thread 3 = some (ThreadList.new 2) := by decide

/-- C7: a valid program of 64 instructions (63 `Die` then `Match`) makes
`search` panic on input "a": `ThreadList::new(64)` allocates a single word,
but the iterator loop condition `index <= size` lets the index reach 64 and
read word `64 / 64 = 1`, out of bounds.  So the VM does have a fallible
operation under a valid program, refuting the claim; the evaluation below
exhibits the panic. -/
theorem search_valid_program_panic_bug :
    validProgram (List.replicate 63 Instruction.Die ++ [Instruction.Match]) ∧
    search (List.replicate 63 Instruction.Die ++ [Instruction.Match]) 3 ['a']
      = .panicked := by
  refine ⟨by decide, by decide⟩

/-- C9, counterexample: with capacity 64 and no `add_thread` calls at all
(every added pc is below the capacity, vacuously), the iterator must yield
the empty sequence, but instead it panics: after skipping the all-zero word 0
the index becomes 64, the loop condition `index <= size` still holds, and
word `1` of the one-word vector is read out of bounds.  `is_empty` is
nevertheless true. -/
theorem iter_capacity_64_cex :
    (ThreadList.new 64).iter = none ∧ (ThreadList.new 64).is_empty = true := by
  decide

/-- C10, counterexample: for the 7-instruction program below (which does not
end in `Match`, so pc 7 can become pending), `search` finds a match on "w"
(at the final no-input step, via `Jump 2 -> Jump 3 -> Match`), but on "wx"
the appended character seeds and revives threads whose epsilon successor is
the out-of-range pc 7 = |p|, which the off-by-one guard of `add_thread`
admits; the next generation dispatches pc 7 and `program[7]` panics.
Appending input thus destroys the reported match. -/
theorem search_append_cex :
    search [Instruction.Split 4 5, Instruction.Jump 2, Instruction.Jump 3,
        Instruction.Match, Instruction.CharOption 'w' 1,
        Instruction.Char 'w' false, Instruction.Char 'q' true] 5 ['w']
      = .ok true ∧
    search [Instruction.Split 4 5, Instruction.Jump 2, Instruction.Jump 3,
        Instruction.Match, Instruction.CharOption 'w' 1,
        Instruction.Char 'w' false, Instruction.Char 'q' true] 5 ['w', 'x']
      = .panicked := by
  refine ⟨by decide, by decide⟩

/-! ### Bit-level facts about words, `trailingZeros`, and `memBit` -/

theorem trailingZerosAux_spec :
    ∀ gas m, m ≠ 0 → m ≤ gas →
      m.testBit (trailingZerosAux gas m) = true ∧
      ∀ j < trailingZerosAux gas m, m.testBit j = false := by
  intro gas
  induction gas with
  | zero => intro m hm hle; omega
  | succ g ih =>
    intro m hm hle
    by_cases hodd : m % 2 = 1
    · have h0 : trailingZerosAux (g + 1) m = 0 := by
        unfold trailingZerosAux
        rw [if_pos hodd]
      refine ⟨?_, ?_⟩
      · rw [h0, Nat.testBit_zero]
        simpa using hodd
      · intro j hj
        omega
    · have heven : m % 2 = 0 := by omega
      have hrec : trailingZerosAux (g + 1) m = trailingZerosAux g (m / 2) + 1 := by
        conv_lhs => rw [trailingZerosAux]
        rw [if_neg hodd]
      have hm2 : m / 2 ≠ 0 := by omega
      have hle2 : m / 2 ≤ g := by omega
      obtain ⟨ht, hbelow⟩ := ih (m / 2) hm2 hle2
      refine ⟨?_, ?_⟩
      · rw [hrec, Nat.testBit_add_one]
        exact ht
      · intro j hj
        rw [hrec] at hj
        cases j with
        | zero =>
          rw [Nat.testBit_zero]
          simp [heven]
        | succ j' =>
          rw [Nat.testBit_add_one]
          exact hbelow j' (by omega)

theorem trailingZeros_spec (m : Nat) (hm : m ≠ 0) :
    m.testBit (trailingZeros m) = true ∧
      ∀ j < trailingZeros m, m.testBit j = false :=
  trailingZerosAux_spec m m hm (le_refl m)

theorem trailingZeros_lt_of_lt_two_pow {m n : Nat} (hm : m ≠ 0) (h : m < 2 ^ n) :
    trailingZeros m < n := by
  by_contra hcon
  push_neg at hcon
  have h1 := (trailingZeros_spec m hm).1
  have h2 : m < 2 ^ trailingZeros m :=
    lt_of_lt_of_le h (Nat.pow_le_pow_right (by omega) hcon)
  rw [Nat.testBit_lt_two_pow h2] at h1
  cases h1

theorem shiftRight_eq_zero_iff {w k : Nat} : w >>> k = 0 ↔ w < 2 ^ k := by
  rw [Nat.shiftRight_eq_div_pow]
  exact Nat.div_eq_zero_iff (Nat.two_pow_pos k)

theorem shiftRight_lt_two_pow {w k n : Nat} (h : w < 2 ^ (k + n)) :
    w >>> k < 2 ^ n := by
  rw [Nat.shiftRight_eq_div_pow]
  rw [Nat.div_lt_iff_lt_mul (Nat.two_pow_pos k)]
  calc w < 2 ^ (k + n) := h
    _ = 2 ^ n * 2 ^ k := by rw [Nat.pow_add, Nat.mul_comm]

/-- The well-formedness of `ThreadList::new`. -/
theorem wfTL_new (capacity : Nat) : wfTL (ThreadList.new capacity) := by
  refine ⟨by simp [ThreadList.new], ?_⟩
  intro w hw
  rw [ThreadList.new] at hw
  rcases (List.mem_replicate.1 hw) with ⟨-, rfl⟩
  exact Nat.two_pow_pos 64

theorem memBit_new (capacity q : Nat) : memBit (ThreadList.new capacity) q = false := by
  unfold memBit ThreadList.new
  rw [List.getD_eq_getElem?_getD, List.getElem?_replicate]
  split <;> simp

/-- Reading the word that holds bit `q`. -/
theorem memBit_eq_of_word {tl : ThreadList} {k w : Nat}
    (hw : tl.threads[k]? = some w) {q : Nat} (hq : q / 64 = k) :
    memBit tl q = w.testBit (q % 64) := by
  unfold memBit
  rw [List.getD_eq_getElem?_getD, hq, hw]
  rfl

theorem memBit_false_of_no_word {tl : ThreadList} {q : Nat}
    (h : tl.threads.length ≤ q / 64) : memBit tl q = false := by
  unfold memBit
  rw [List.getD_eq_getElem?_getD, List.getElem?_eq_none (by omega)]
  simp

/-- `add_thread` drops strictly-too-large pcs silently. -/
theorem add_thread_gt {tl : ThreadList} {pc : Nat} (h : tl.size < pc) :
    tl.add_thread pc = some tl := by
  unfold ThreadList.add_thread
  rw [if_pos h]

/-- `add_thread` on an in-range pc whose word exists: success, and exactly
bit `pc` is added. -/
theorem add_thread_le_spec {tl : ThreadList} {pc : Nat}
    (hle : pc ≤ tl.size) (hlt : pc / 64 < tl.threads.length) :
    ∃ tl', tl.add_thread pc = some tl' ∧ tl'.size = tl.size ∧
      tl'.threads.length = tl.threads.length ∧ (wfTL tl → wfTL tl') ∧
      ∀ q, memBit tl' q = (memBit tl q || decide (q = pc)) := by
  obtain ⟨w, hw⟩ : ∃ w, tl.threads[pc / 64]? = some w :=
    ⟨_, List.getElem?_eq_getElem hlt⟩
  have hbit : pc - pc / 64 * 64 = pc % 64 := by omega
  have hshift : (1 : Nat) <<< (pc % 64) = 2 ^ (pc % 64) := Nat.one_shiftLeft _
  refine ⟨⟨tl.size, tl.threads.set (pc / 64) (w ||| 2 ^ (pc % 64))⟩, ?_, rfl, by simp, ?_, ?_⟩
  · simp only [ThreadList.add_thread, List.get?_eq_getElem?, hw, hbit, hshift]
    rw [if_neg (by omega : ¬ pc > tl.size)]
  · intro hwf
    refine ⟨by simpa using hwf.1, ?_⟩
    intro w' hw'
    rcases List.mem_or_eq_of_mem_set hw' with hmem | rfl
    · exact hwf.2 w' hmem
    · exact Nat.or_lt_two_pow (hwf.2 w (List.getElem?_mem hw))
        (Nat.pow_lt_pow_right (by omega) (by omega))
  · intro q
    by_cases hk : q / 64 = pc / 64
    · have hget : (tl.threads.set (pc / 64) (w ||| 2 ^ (pc % 64)))[q / 64]?
          = some (w ||| 2 ^ (pc % 64)) := by
        rw [hk]
        exact List.getElem?_set_self (by omega)
      rw [memBit_eq_of_word hget rfl, memBit_eq_of_word hw hk]
      rw [Nat.testBit_or, Nat.testBit_two_pow]
      have : (q = pc) ↔ (pc % 64 = q % 64) := by omega
      simp [this]
    · have hne : q ≠ pc := fun h => hk (by rw [h])
      have hget : (tl.threads.set (pc / 64) (w ||| 2 ^ (pc % 64)))[q / 64]?
          = tl.threads[q / 64]? :=
        List.getElem?_set_ne (fun h => hk h.symm)
      unfold memBit
      rw [List.getD_eq_getElem?_getD, List.getD_eq_getElem?_getD, hget]
      simp [hne]

/-- `add_thread_le_spec` under well-formedness of the input. -/
theorem add_thread_spec {tl : ThreadList} {pc : Nat} (hwf : wfTL tl)
    (hle : pc ≤ tl.size) (hlt : pc / 64 < tl.threads.length) :
    ∃ tl', tl.add_thread pc = some tl' ∧ tl'.size = tl.size ∧
      tl'.threads.length = tl.threads.length ∧ wfTL tl' ∧
      ∀ q, memBit tl' q = (memBit tl q || decide (q = pc)) := by
  obtain ⟨tl', h1, h2, h3, h4, h5⟩ := add_thread_le_spec hle hlt
  exact ⟨tl', h1, h2, h3, h4 hwf, h5⟩

/-- `add_thread` with an in-range pc under well-formedness: the word exists
whenever `pc < size`, or when `pc ≤ size` and the capacity is not a multiple
of 64. -/
theorem add_thread_lt_spec {tl : ThreadList} {pc : Nat} (hwf : wfTL tl)
    (hlt : pc < tl.size) :
    ∃ tl', tl.add_thread pc = some tl' ∧ tl'.size = tl.size ∧
      tl'.threads.length = tl.threads.length ∧ wfTL tl' ∧
      ∀ q, memBit tl' q = (memBit tl q || decide (q = pc)) :=
  add_thread_spec hwf (by omega) (by rw [hwf.1]; omega)

/-- `is_empty` agrees with the absence of set bits on well-formed lists. -/
theorem is_empty_iff_no_memBit {tl : ThreadList} (hwf : wfTL tl) :
    tl.is_empty = true ↔ ∀ q, memBit tl q = false := by
  constructor
  · intro h q
    rw [ThreadList.is_empty, List.all_eq_true] at h
    by_cases hk : q / 64 < tl.threads.length
    · obtain ⟨w, hw⟩ : ∃ w, tl.threads[q / 64]? = some w :=
        ⟨_, List.getElem?_eq_getElem hk⟩
      have hw0 : w = 0 := by
        have := h w (List.getElem?_mem hw)
        simpa using this
      rw [memBit_eq_of_word hw rfl, hw0]
      simp
    · exact memBit_false_of_no_word (by omega)
  · intro h
    rw [ThreadList.is_empty, List.all_eq_true]
    intro w hw
    obtain ⟨k, hk⟩ := List.mem_iff_getElem?.1 hw
    have hwlt : w < 2 ^ 64 := hwf.2 w hw
    by_contra hne
    have hw0 : w ≠ 0 := by simpa using hne
    have htz := (trailingZeros_spec w hw0).1
    have htzlt : trailingZeros w < 64 := trailingZeros_lt_of_lt_two_pow hw0 hwlt
    have hq : memBit tl (64 * k + trailingZeros w) = true := by
      rw [memBit_eq_of_word hk (by omega)]
      have : (64 * k + trailingZeros w) % 64 = trailingZeros w := by omega
      rw [this]
      exact htz
    rw [h] at hq
    cases hq

/-- A nonempty well-formed thread list has a set bit. -/
theorem exists_memBit_of_not_is_empty {tl : ThreadList} (hwf : wfTL tl)
    (h : tl.is_empty = false) : ∃ q, memBit tl q = true := by
  by_contra hcon
  push_neg at hcon
  have : tl.is_empty = true := (is_empty_iff_no_memBit hwf).2 (by
    intro q
    cases hq : memBit tl q
    · rfl
    · exact absurd hq (hcon q))
  rw [this] at h
  cases h

/-! ### Iterator refinement (C9) -/

theorem iterFrom_stop {tl : ThreadList} (gas : Nat) {index : Nat}
    (h : ¬ index ≤ tl.size) : tl.iterFrom gas index = some [] := by
  rw [ThreadList.iterFrom.eq_def]
  rw [if_neg h]

/-- Characterization of the iterator on a well-formed thread list whose
capacity is not a multiple of 64 and whose set bits all lie below the
capacity: from any start index, with adequate gas, it succeeds and yields
exactly the set bits at or after the start index, in strictly increasing
order. -/
theorem iterFrom_spec {tl : ThreadList} (hwf : wfTL tl) (hsz : tl.size % 64 ≠ 0)
    (hbits : ∀ q, memBit tl q = true → q < tl.size) :
    ∀ gas index, tl.size + 1 - index ≤ gas →
      ∃ l, tl.iterFrom gas index = some l ∧
        List.Pairwise (fun a b => a < b) l ∧
        ∀ q, q ∈ l ↔ (memBit tl q = true ∧ index ≤ q) := by
  intro gas
  induction gas with
  | zero =>
    intro index hgas
    refine ⟨[], iterFrom_stop 0 (by omega), List.Pairwise.nil, ?_⟩
    intro q
    simp only [List.not_mem_nil, false_iff]
    rintro ⟨hq, hle⟩
    have := hbits q hq
    omega
  | succ gas ih =>
    intro index hgas
    by_cases hidx : index ≤ tl.size
    case neg =>
      refine ⟨[], iterFrom_stop (gas + 1) hidx, List.Pairwise.nil, ?_⟩
      intro q
      simp only [List.not_mem_nil, false_iff]
      rintro ⟨hq, hle⟩
      have := hbits q hq
      omega
    case pos =>
      have hkl : index / 64 < tl.threads.length := by
        rw [hwf.1]
        omega
      obtain ⟨w, hw⟩ : ∃ w, tl.threads[index / 64]? = some w :=
        ⟨_, List.getElem?_eq_getElem hkl⟩
      have hwlt : w < 2 ^ 64 := hwf.2 w (List.getElem?_mem hw)
      have hunf : tl.iterFrom (gas + 1) index =
          (if w >>> (index % 64) = 0 then
            tl.iterFrom gas ((index / 64 + 1) * 64)
          else
            match tl.iterFrom gas ((index + trailingZeros (w >>> (index % 64))) + 1) with
            | none => none
            | some rest =>
                some ((index + trailingZeros (w >>> (index % 64))) :: rest)) := by
        have hbi : index - index / 64 * 64 = index % 64 := by omega
        have hni : trailingZeros (w >>> (index % 64)) + index % 64 + index / 64 * 64
            = index + trailingZeros (w >>> (index % 64)) := by omega
        rw [ThreadList.iterFrom.eq_def, if_pos hidx]
        simp only [List.get?_eq_getElem?, hw, hbi, hni]
      by_cases hr : w >>> (index % 64) = 0
      · -- the rest of this word is clear: skip to the next word boundary
        have hwsmall : w < 2 ^ (index % 64) := shiftRight_eq_zero_iff.1 hr
        have hgap : ∀ q, index ≤ q → q < (index / 64 + 1) * 64 →
            memBit tl q = false := by
          intro q hq1 hq2
          have hk : q / 64 = index / 64 := by omega
          rw [memBit_eq_of_word hw hk]
          have : w < 2 ^ (q % 64) :=
            lt_of_lt_of_le hwsmall (Nat.pow_le_pow_right (by omega) (by omega))
          exact Nat.testBit_lt_two_pow this
        obtain ⟨l, hl, hpw, hmem⟩ := ih ((index / 64 + 1) * 64) (by omega)
        refine ⟨l, ?_, hpw, ?_⟩
        · rw [hunf, if_pos hr]
          exact hl
        · intro q
          rw [hmem q]
          constructor
          · rintro ⟨hq, hle⟩
            exact ⟨hq, by omega⟩
          · rintro ⟨hq, hle⟩
            refine ⟨hq, ?_⟩
            by_contra hcon
            push_neg at hcon
            rw [hgap q hle hcon] at hq
            cases hq
      · -- yield the lowest set bit at or after the index
        have hrlt : w >>> (index % 64) < 2 ^ (64 - index % 64) := by
          refine shiftRight_lt_two_pow ?_
          rw [show index % 64 + (64 - index % 64) = 64 from by omega]
          exact hwlt
        have htlt : trailingZeros (w >>> (index % 64)) < 64 - index % 64 :=
          trailingZeros_lt_of_lt_two_pow hr hrlt
        set t := trailingZeros (w >>> (index % 64)) with ht
        have htbit : (w >>> (index % 64)).testBit t = true :=
          (trailingZeros_spec _ hr).1
        have htbelow := (trailingZeros_spec _ hr).2
        have hnik : (index + t) / 64 = index / 64 := by omega
        have hnim : (index + t) % 64 = index % 64 + t := by omega
        have hmem_ni : memBit tl (index + t) = true := by
          rw [memBit_eq_of_word hw hnik, hnim]
          rw [← Nat.testBit_shiftRight]
          exact htbit
        have hgap : ∀ q, index ≤ q → q < index + t → memBit tl q = false := by
          intro q hq1 hq2
          have hk : q / 64 = index / 64 := by omega
          rw [memBit_eq_of_word hw hk]
          have hqm : q % 64 = index % 64 + (q - index) := by omega
          rw [hqm, ← Nat.testBit_shiftRight]
          exact htbelow (q - index) (by omega)
        obtain ⟨rest, hrest, hpw, hmem⟩ := ih ((index + t) + 1) (by omega)
        refine ⟨(index + t) :: rest, ?_, ?_, ?_⟩
        · rw [hunf, if_neg hr, hrest]
        · rw [List.pairwise_cons]
          refine ⟨?_, hpw⟩
          intro q hq
          have := (hmem q).1 hq
          omega
        · intro q
          rw [List.mem_cons, hmem q]
          constructor
          · rintro (rfl | ⟨hq, hle⟩)
            · exact ⟨hmem_ni, by omega⟩
            · exact ⟨hq, by omega⟩
          · rintro ⟨hq, hle⟩
            rcases lt_trichotomy q (index + t) with hlt | rfl | hgt
            · rw [hgap q hle hlt] at hq
              cases hq
            · exact Or.inl rfl
            · exact Or.inr ⟨hq, by omega⟩

/-- Folding a sequence of `add_thread` calls over a well-formed list whose
pcs lie below the capacity: all succeed and the set bits are the initial
ones plus the added pcs. -/
theorem buildTL_go (capacity : Nat) :
    ∀ (adds : List Nat) (tl0 : ThreadList), tl0.size = capacity → wfTL tl0 →
      (∀ pc ∈ adds, pc < capacity) →
      ∃ tl, adds.foldl (fun acc pc => acc.bind (fun t => t.add_thread pc))
          (some tl0) = some tl ∧
        tl.size = capacity ∧ wfTL tl ∧
        ∀ q, memBit tl q = true ↔ (memBit tl0 q = true ∨ q ∈ adds) := by
  intro adds
  induction adds with
  | nil =>
    intro tl0 hsz hwf hpc
    exact ⟨tl0, rfl, hsz, hwf, by simp⟩
  | cons pc rest ih =>
    intro tl0 hsz hwf hpc
    obtain ⟨tl1, hadd, hsz1, hlen1, hwf1, hbits1⟩ :=
      add_thread_lt_spec hwf (by rw [hsz]; exact hpc pc (by simp))
    obtain ⟨tl, hfold, hszf, hwff, hbitsf⟩ :=
      ih tl1 (hsz1.trans hsz) hwf1 (fun p hp => hpc p (by simp [hp]))
    refine ⟨tl, ?_, hszf, hwff, ?_⟩
    · rw [List.foldl_cons]
      show List.foldl _ (tl0.add_thread pc) rest = some tl
      rw [hadd]
      exact hfold
    · intro q
      rw [hbitsf q, List.mem_cons]
      have h1 : memBit tl1 q = true ↔ (memBit tl0 q = true ∨ q = pc) := by
        rw [hbits1 q]
        simp
      rw [h1]
      tauto

/-- C9, amended: for every sequence of `add_thread` calls with pcs below the
capacity on a fresh (or cleared) list, **provided the capacity is not a
multiple of 64**, every call succeeds and the bitset iterator yields exactly
the set of distinct pcs added, each exactly once, in strictly increasing
order, and `is_empty` holds exactly when no pc was added.  When the capacity
is a multiple of 64 the iterator instead reads one word past the bitset and
panics (see the counterexample). -/
theorem iter_sorted_distinct_of_add_thread (capacity : Nat) (adds : List Nat)
    (hcap : capacity % 64 ≠ 0) (hpc : ∀ pc ∈ adds, pc < capacity) :
    ∃ tl l, buildTL capacity adds = some tl ∧ tl.iter = some l ∧
      List.Pairwise (fun a b => a < b) l ∧
      (∀ q, q ∈ l ↔ q ∈ adds) ∧
      (tl.is_empty = true ↔ adds = []) := by
  obtain ⟨tl, hfold, hsz, hwf, hbits⟩ :=
    buildTL_go capacity adds (ThreadList.new capacity) rfl (wfTL_new capacity) hpc
  have hbits' : ∀ q, memBit tl q = true ↔ q ∈ adds := by
    intro q
    rw [hbits q, memBit_new]
    simp
  have hlt : ∀ q, memBit tl q = true → q < tl.size := by
    intro q hq
    rw [hsz]
    exact hpc q ((hbits' q).1 hq)
  obtain ⟨l, hl, hpw, hmem⟩ :=
    iterFrom_spec hwf (by rw [hsz]; exact hcap) hlt (tl.size + 1) 0 (by omega)
  refine ⟨tl, l, hfold, hl, hpw, ?_, ?_⟩
  · intro q
    rw [hmem q]
    constructor
    · rintro ⟨h, -⟩
      exact (hbits' q).1 h
    · intro h
      exact ⟨(hbits' q).2 h, by omega⟩
  · rw [is_empty_iff_no_memBit hwf]
    constructor
    · intro h
      rw [List.eq_nil_iff_forall_not_mem]
      intro a ha
      have := (hbits' a).2 ha
      rw [h a] at this
      cases this
    · intro h
      subst h
      intro q
      cases hq : memBit tl q
      · rfl
      · exact absurd ((hbits' q).1 hq) (by simp)

theorem iter_sorted_distinct_witness :
    ((10 : Nat) % 64 ≠ 0) ∧ (∀ pc ∈ [7, 3, 3], pc < 10) ∧
    ∃ tl l, buildTL 10 [7, 3, 3] = some tl ∧ tl.iter = some l ∧
      List.Pairwise (fun a b => a < b) l ∧
      (∀ q, q ∈ l ↔ q ∈ [7, 3, 3]) ∧
      (tl.is_empty = true ↔ ([7, 3, 3] : List Nat) = []) :=
  ⟨by decide, by decide,
    iter_sorted_distinct_of_add_thread 10 [7, 3, 3] (by decide) (by decide)⟩

/-! ### Per-instruction transition semantics (C2, C3 amended) -/

/-- C2, amended: for `Range(lo, hi, inverted = true)` with an input symbol
present and outside `[lo, hi]`, the thread takes a non-consuming transition:
its successor `pc + 1` is placed in the same-position (temp) list, and the
input cursor does not advance (the next-position list is untouched); when no
input symbol is present there is no transition. -/
theorem range_inverted_steps_in_place (c_min c_max s : Symbol) (pc : Nat)
    (temp next : ThreadList) (hwf : wfTL temp) (hpc : pc + 1 < temp.size)
    (hs : s < c_min ∨ c_max < s) :
    (∃ t, execInst (.Range c_min c_max true) pc (some s) temp next
        = some (false, t, next) ∧ t.size = temp.size ∧ wfTL t ∧
      ∀ q, memBit t q = (memBit temp q || decide (q = pc + 1))) ∧
    execInst (.Range c_min c_max true) pc none temp next
      = some (false, temp, next) := by
  obtain ⟨t, hadd, hsz, hlen, hwft, hbits⟩ := add_thread_lt_spec hwf hpc
  refine ⟨⟨t, ?_, hsz, hwft, hbits⟩, rfl⟩
  show (if s < c_min ∨ c_max < s then
      (temp.add_thread (pc + 1)).map (fun t => (false, t, next))
    else some (false, temp, next)) = some (false, t, next)
  rw [if_pos hs, hadd]
  rfl

theorem range_inverted_steps_in_place_witness :
    (∃ t, execInst (.Range 'b' 'y' true) 0 (some 'z')
        (ThreadList.new 3) (ThreadList.new 3)
        = some (false, t, ThreadList.new 3) ∧
      t.size = (ThreadList.new 3).size ∧ wfTL t ∧
      ∀ q, memBit t q = (memBit (ThreadList.new 3) q || decide (q = 0 + 1))) ∧
    execInst (.Range 'b' 'y' true) 0 none (ThreadList.new 3) (ThreadList.new 3)
      = some (false, ThreadList.new 3, ThreadList.new 3) :=
  range_inverted_steps_in_place 'b' 'y' 'z' 0 (ThreadList.new 3)
    (ThreadList.new 3) (by decide) (by decide) (by decide)

/-- C3, amended: `RangeOption(lo, hi, dest)` with an input symbol present is
a two-way branch whose in-range arm consumes: if the symbol is within
`[lo, hi]` the thread is enqueued at `dest` in the next-position list (the
input cursor advances); otherwise it falls through to `pc + 1` in the
same-position (temp) list without advancing.  With no input symbol the
thread is dropped. -/
theorem rangeOption_branch_semantics (c_min c_max s : Symbol) (dest pc : Nat)
    (temp next : ThreadList) (hwt : wfTL temp) (hwn : wfTL next)
    (hdest : dest < next.size) (hpc : pc + 1 < temp.size) :
    ((c_min ≤ s ∧ s ≤ c_max) →
      ∃ n, execInst (.RangeOption c_min c_max dest) pc (some s) temp next
          = some (false, temp, n) ∧ n.size = next.size ∧ wfTL n ∧
        ∀ q, memBit n q = (memBit next q || decide (q = dest))) ∧
    ((s < c_min ∨ c_max < s) →
      ∃ t, execInst (.RangeOption c_min c_max dest) pc (some s) temp next
          = some (false, t, next) ∧ t.size = temp.size ∧ wfTL t ∧
        ∀ q, memBit t q = (memBit temp q || decide (q = pc + 1))) ∧
    execInst (.RangeOption c_min c_max dest) pc none temp next
      = some (false, temp, next) := by
  refine ⟨?_, ?_, rfl⟩
  · intro hin
    obtain ⟨n, hadd, hsz, hlen, hwfn, hbits⟩ := add_thread_lt_spec hwn hdest
    refine ⟨n, ?_, hsz, hwfn, hbits⟩
    show (if c_min ≤ s ∧ s ≤ c_max then
        (next.add_thread dest).map (fun n => (false, temp, n))
      else (temp.add_thread (pc + 1)).map (fun t => (false, t, next)))
      = some (false, temp, n)
    rw [if_pos hin, hadd]
    rfl
  · intro hout
    have hnot : ¬ (c_min ≤ s ∧ s ≤ c_max) := by
      rcases hout with h | h
      · exact fun hc => absurd hc.1 (not_le.2 h)
      · exact fun hc => absurd hc.2 (not_le.2 h)
    obtain ⟨t, hadd, hsz, hlen, hwft, hbits⟩ := add_thread_lt_spec hwt hpc
    refine ⟨t, ?_, hsz, hwft, hbits⟩
    show (if c_min ≤ s ∧ s ≤ c_max then
        (next.add_thread dest).map (fun n => (false, temp, n))
      else (temp.add_thread (pc + 1)).map (fun t => (false, t, next)))
      = some (false, t, next)
    rw [if_neg hnot, hadd]
    rfl

theorem rangeOption_branch_semantics_witness :
    ((('a' : Symbol) ≤ 'm' ∧ ('m' : Symbol) ≤ 'z') →
      ∃ n, execInst (.RangeOption 'a' 'z' 2) 4 (some 'm')
          (ThreadList.new 7) (ThreadList.new 7)
          = some (false, ThreadList.new 7, n) ∧
        n.size = (ThreadList.new 7).size ∧ wfTL n ∧
        ∀ q, memBit n q = (memBit (ThreadList.new 7) q || decide (q = 2))) ∧
    ((('m' : Symbol) < 'a' ∨ ('z' : Symbol) < 'm') →
      ∃ t, execInst (.RangeOption 'a' 'z' 2) 4 (some 'm')
          (ThreadList.new 7) (ThreadList.new 7)
          = some (false, t, ThreadList.new 7) ∧
        t.size = (ThreadList.new 7).size ∧ wfTL t ∧
        ∀ q, memBit t q = (memBit (ThreadList.new 7) q || decide (q = 4 + 1))) ∧
    execInst (.RangeOption 'a' 'z' 2) 4 none (ThreadList.new 7) (ThreadList.new 7)
      = some (false, ThreadList.new 7, ThreadList.new 7) :=
  rangeOption_branch_semantics 'a' 'z' 'm' 2 4 (ThreadList.new 7)
    (ThreadList.new 7) (by decide) (by decide) (by decide) (by decide)

/-! ### Further characterizations of add_thread -/

theorem add_thread_none_iff {tl : ThreadList} {pc : Nat} :
    tl.add_thread pc = none ↔ (pc ≤ tl.size ∧ tl.threads.length ≤ pc / 64) := by
  constructor
  · intro h
    by_cases hgt : pc > tl.size
    · rw [add_thread_gt hgt] at h
      cases h
    · refine ⟨by omega, ?_⟩
      by_contra hlen
      push_neg at hlen
      obtain ⟨tl', h1, -⟩ := add_thread_le_spec (by omega) hlen
      rw [h1] at h
      cases h
  · rintro ⟨hle, hlen⟩
    simp only [ThreadList.add_thread, List.get?_eq_getElem?,
      List.getElem?_eq_none (by omega : tl.threads.length ≤ pc / 64)]
    rw [if_neg (by omega : ¬ pc > tl.size)]

theorem add_thread_some_spec {tl tl' : ThreadList} {pc : Nat}
    (h : tl.add_thread pc = some tl') :
    tl'.size = tl.size ∧ tl'.threads.length = tl.threads.length ∧
    (wfTL tl → wfTL tl') ∧
    (∀ q, memBit tl q = true → memBit tl' q = true) ∧
    (∀ q, memBit tl' q = true → memBit tl q = true ∨ (q = pc ∧ pc ≤ tl.size)) := by
  by_cases hgt : pc > tl.size
  · rw [add_thread_gt hgt] at h
    have heq := Option.some.inj h
    subst heq
    exact ⟨rfl, rfl, id, fun q hq => hq, fun q hq => Or.inl hq⟩
  · have hle : pc ≤ tl.size := by omega
    have hlen : pc / 64 < tl.threads.length := by
      by_contra hcon
      push_neg at hcon
      rw [add_thread_none_iff.2 ⟨hle, hcon⟩] at h
      cases h
    obtain ⟨tl2, h1, h2, h3, h4, h5⟩ := add_thread_le_spec hle hlen
    rw [h1] at h
    have heq := Option.some.inj h
    subst heq
    refine ⟨h2, h3, h4, ?_, ?_⟩
    · intro q hq
      rw [h5 q, hq]
      simp
    · intro q hq
      rw [h5 q] at hq
      simp only [Bool.or_eq_true, decide_eq_true_eq] at hq
      rcases hq with hq | rfl
      · exact Or.inl hq
      · exact Or.inr ⟨rfl, hle⟩

theorem add_thread_pair_mono {tN tS tN' : ThreadList} {pc : Nat}
    (hszeq : tN.size = tS.size)
    (hlen : tN.threads.length = tS.threads.length)
    (hsub : ∀ q, memBit tN q = true → memBit tS q = true)
    (hN : tN.add_thread pc = some tN') :
    ∃ tS', tS.add_thread pc = some tS' ∧
      ∀ q, memBit tN' q = true → memBit tS' q = true := by
  by_cases hgt : pc > tN.size
  · rw [add_thread_gt hgt] at hN
    have heq := Option.some.inj hN
    subst heq
    exact ⟨tS, add_thread_gt (by omega), hsub⟩
  · have hle : pc ≤ tN.size := by omega
    have hlenN : pc / 64 < tN.threads.length := by
      by_contra hcon
      push_neg at hcon
      rw [add_thread_none_iff.2 ⟨hle, hcon⟩] at hN
      cases hN
    obtain ⟨tN2, h1, -, -, -, h5⟩ := add_thread_le_spec hle hlenN
    rw [h1] at hN
    have heq := Option.some.inj hN
    subst heq
    obtain ⟨tS', g1, -, -, -, g5⟩ :=
      @add_thread_le_spec tS pc (by omega) (by omega)
    refine ⟨tS', g1, ?_⟩
    intro q hq
    rw [h5 q] at hq
    rw [g5 q]
    simp only [Bool.or_eq_true, decide_eq_true_eq] at hq ⊢
    rcases hq with hq | rfl
    · exact Or.inl (hsub q hq)
    · exact Or.inr rfl

/-! ### Successor bounds under program validity -/

theorem next_pc_lt_of_not_match {program : List Instruction}
    (hvalid : validProgram program) {pc : Nat} {inst : Instruction}
    (hget : program.get? pc = some inst) (hne : inst ≠ .Match) :
    pc + 1 < program.length := by
  rw [List.get?_eq_getElem?] at hget
  obtain ⟨hpc, hval⟩ := List.getElem?_eq_some_iff.1 hget
  by_contra hcon
  push_neg at hcon
  have hpceq : pc = program.length - 1 := by omega
  have hlast : program.getLast? = some Instruction.Match := hvalid.2
  rw [List.getLast?_eq_getElem?] at hlast
  rw [← hpceq] at hlast
  rw [List.getElem?_eq_some_iff] at hlast
  obtain ⟨hpc2, hval2⟩ := hlast
  exact hne (hval ▸ hval2 ▸ rfl)

theorem epsSuccs_lt {program : List Instruction} (hvalid : validProgram program)
    {pc : Nat} {inst : Instruction} (hget : program.get? pc = some inst) :
    ∀ q ∈ epsSuccs pc inst, q < program.length := by
  intro q hq
  have hmem : inst ∈ program := List.get?_mem hget
  have hok := hvalid.1 inst hmem
  cases inst with
  | Match => simp [epsSuccs] at hq
  | Die => simp [epsSuccs] at hq
  | Consume => simp [epsSuccs] at hq
  | Char c inv =>
    cases inv with
    | false => simp [epsSuccs] at hq
    | true =>
      simp only [epsSuccs, List.mem_singleton] at hq
      subst hq
      exact next_pc_lt_of_not_match hvalid hget (fun h => Instruction.noConfusion h)
  | CharOption c dest =>
    simp only [epsSuccs, List.mem_singleton] at hq
    subst hq
    exact next_pc_lt_of_not_match hvalid hget (fun h => Instruction.noConfusion h)
  | Range cmin cmax inv =>
    cases inv with
    | false => simp [epsSuccs] at hq
    | true =>
      simp only [epsSuccs, List.mem_singleton] at hq
      subst hq
      exact next_pc_lt_of_not_match hvalid hget (fun h => Instruction.noConfusion h)
  | RangeOption cmin cmax dest =>
    simp only [epsSuccs, List.mem_singleton] at hq
    subst hq
    exact next_pc_lt_of_not_match hvalid hget (fun h => Instruction.noConfusion h)
  | Jump dest =>
    simp only [epsSuccs, List.mem_singleton] at hq
    subst hq
    simpa [okDests] using hok
  | Split d1 d2 =>
    simp only [epsSuccs, List.mem_cons, List.not_mem_nil, or_false] at hq
    have hok' : d1 < program.length ∧ d2 < program.length := by
      simpa [okDests] using hok
    rcases hq with rfl | rfl
    · exact hok'.1
    · exact hok'.2

theorem consSuccs_lt {program : List Instruction} (hvalid : validProgram program)
    {pc : Nat} {inst : Instruction} (hget : program.get? pc = some inst) :
    ∀ q ∈ consSuccs pc inst, q < program.length := by
  intro q hq
  have hmem : inst ∈ program := List.get?_mem hget
  have hok := hvalid.1 inst hmem
  cases inst with
  | Match => simp [consSuccs] at hq
  | Die => simp [consSuccs] at hq
  | Consume =>
    simp only [consSuccs, List.mem_singleton] at hq
    subst hq
    exact next_pc_lt_of_not_match hvalid hget (fun h => Instruction.noConfusion h)
  | Char c inv =>
    cases inv with
    | true => simp [consSuccs] at hq
    | false =>
      simp only [consSuccs, List.mem_singleton] at hq
      subst hq
      exact next_pc_lt_of_not_match hvalid hget (fun h => Instruction.noConfusion h)
  | CharOption c dest =>
    simp only [consSuccs, List.mem_singleton] at hq
    subst hq
    simpa [okDests] using hok
  | Range cmin cmax inv =>
    cases inv with
    | true => simp [consSuccs] at hq
    | false =>
      simp only [consSuccs, List.mem_singleton] at hq
      subst hq
      exact next_pc_lt_of_not_match hvalid hget (fun h => Instruction.noConfusion h)
  | RangeOption cmin cmax dest =>
    simp only [consSuccs, List.mem_singleton] at hq
    subst hq
    simpa [okDests] using hok
  | Jump dest => simp [consSuccs] at hq
  | Split d1 d2 => simp [consSuccs] at hq

/-! ### Per-arm analysis of execInst -/

theorem extendsOut_refl {inst : Instruction} (temp next : ThreadList) {b : Bool}
    (hb : b = true ↔ inst = .Match) : ExtendsOut inst temp next b temp next :=
  ⟨rfl, rfl, rfl, rfl, id, id, fun _ hq => hq, fun _ hq => hq,
    fun _ hq => Or.inl hq, fun _ hq => Or.inl hq, hb⟩

theorem extendsOut_temp_add {inst : Instruction} {temp next t : ThreadList}
    {x : Nat} (hadd : temp.add_thread x = some t) (hne : inst ≠ .Match) :
    ExtendsOut inst temp next false t next := by
  obtain ⟨h1, h2, h3, h4, h5⟩ := add_thread_some_spec hadd
  exact ⟨h1, rfl, h2, rfl, h3, id, h4, fun _ hq => hq,
    fun q hq => (h5 q hq).elim Or.inl (fun hh => Or.inr (by omega)),
    fun _ hq => Or.inl hq,
    ⟨fun h => absurd h (by simp), fun h => absurd h hne⟩⟩

theorem extendsOut_next_add {inst : Instruction} {temp next n : ThreadList}
    {x : Nat} (hadd : next.add_thread x = some n) (hne : inst ≠ .Match) :
    ExtendsOut inst temp next false temp n := by
  obtain ⟨h1, h2, h3, h4, h5⟩ := add_thread_some_spec hadd
  exact ⟨rfl, h1, rfl, h2, id, h3, fun _ hq => hq, h4,
    fun _ hq => Or.inl hq,
    fun q hq => (h5 q hq).elim Or.inl (fun hh => Or.inr (by omega)),
    ⟨fun h => absurd h (by simp), fun h => absurd h hne⟩⟩

theorem extendsOut_split_add {inst : Instruction} {temp next t1 t : ThreadList}
    {x y : Nat} (hadd1 : temp.add_thread x = some t1)
    (hadd2 : t1.add_thread y = some t) (hne : inst ≠ .Match) :
    ExtendsOut inst temp next false t next := by
  obtain ⟨h1, h2, h3, h4, h5⟩ := add_thread_some_spec hadd1
  obtain ⟨g1, g2, g3, g4, g5⟩ := add_thread_some_spec hadd2
  refine ⟨g1.trans h1, rfl, g2.trans h2, rfl, fun hw => g3 (h3 hw), id,
    fun q hq => g4 q (h4 q hq), fun _ hq => hq, ?_,
    fun _ hq => Or.inl hq,
    ⟨fun h => absurd h (by simp), fun h => absurd h hne⟩⟩
  intro q hq
  rcases g5 q hq with hq1 | hq1
  · rcases h5 q hq1 with hq2 | hq2
    · exact Or.inl hq2
    · exact Or.inr (by omega)
  · exact Or.inr (by omega)

/-- Any successful dispatch of one instruction extends the temp and next
lists as described by `ExtendsOut`. -/
theorem execInst_success_extends {inst : Instruction} {pc : Nat}
    {input_char : Option Symbol} {temp next : ThreadList}
    {b : Bool} {t n : ThreadList}
    (h : execInst inst pc input_char temp next = some (b, t, n)) :
    ExtendsOut inst temp next b t n := by
  cases inst with
  | Match =>
    simp only [execInst, Option.some.injEq, Prod.mk.injEq] at h
    obtain ⟨rfl, rfl, rfl⟩ := h
    exact extendsOut_refl temp next (by simp)
  | Die =>
    simp only [execInst, Option.some.injEq, Prod.mk.injEq] at h
    obtain ⟨rfl, rfl, rfl⟩ := h
    exact extendsOut_refl temp next (by simp)
  | Consume =>
    cases input_char with
    | none =>
      simp only [execInst, Option.some.injEq, Prod.mk.injEq] at h
      obtain ⟨rfl, rfl, rfl⟩ := h
      exact extendsOut_refl temp next (by simp)
    | some c =>
      simp only [execInst] at h
      cases hadd : next.add_thread (pc + 1) with
      | none => rw [hadd] at h; simp at h
      | some n1 =>
        rw [hadd] at h
        simp only [Option.map_some', Option.some.injEq, Prod.mk.injEq] at h
        obtain ⟨rfl, rfl, rfl⟩ := h
        exact extendsOut_next_add hadd (fun hh => Instruction.noConfusion hh)
  | Char cc inv =>
    cases input_char with
    | none =>
      cases inv <;>
        (simp only [execInst, Option.some.injEq, Prod.mk.injEq] at h
         obtain ⟨rfl, rfl, rfl⟩ := h
         exact extendsOut_refl temp next (by simp))
    | some c =>
      cases inv with
      | false =>
        simp only [execInst] at h
        split at h
        · cases hadd : next.add_thread (pc + 1) with
          | none => rw [hadd] at h; simp at h
          | some n1 =>
            rw [hadd] at h
            simp only [Option.map_some', Option.some.injEq, Prod.mk.injEq] at h
            obtain ⟨rfl, rfl, rfl⟩ := h
            exact extendsOut_next_add hadd (fun hh => Instruction.noConfusion hh)
        · simp only [Option.some.injEq, Prod.mk.injEq] at h
          obtain ⟨rfl, rfl, rfl⟩ := h
          exact extendsOut_refl temp next (by simp)
      | true =>
        simp only [execInst] at h
        split at h
        · cases hadd : temp.add_thread (pc + 1) with
          | none => rw [hadd] at h; simp at h
          | some t1 =>
            rw [hadd] at h
            simp only [Option.map_some', Option.some.injEq, Prod.mk.injEq] at h
            obtain ⟨rfl, rfl, rfl⟩ := h
            exact extendsOut_temp_add hadd (fun hh => Instruction.noConfusion hh)
        · simp only [Option.some.injEq, Prod.mk.injEq] at h
          obtain ⟨rfl, rfl, rfl⟩ := h
          exact extendsOut_refl temp next (by simp)
  | CharOption cc dest =>
    cases input_char with
    | none =>
      simp only [execInst, Option.some.injEq, Prod.mk.injEq] at h
      obtain ⟨rfl, rfl, rfl⟩ := h
      exact extendsOut_refl temp next (by simp)
    | some c =>
      simp only [execInst] at h
      split at h
      · cases hadd : next.add_thread dest with
        | none => rw [hadd] at h; simp at h
        | some n1 =>
          rw [hadd] at h
          simp only [Option.map_some', Option.some.injEq, Prod.mk.injEq] at h
          obtain ⟨rfl, rfl, rfl⟩ := h
          exact extendsOut_next_add hadd (fun hh => Instruction.noConfusion hh)
      · cases hadd : temp.add_thread (pc + 1) with
        | none => rw [hadd] at h; simp at h
        | some t1 =>
          rw [hadd] at h
          simp only [Option.map_some', Option.some.injEq, Prod.mk.injEq] at h
          obtain ⟨rfl, rfl, rfl⟩ := h
          exact extendsOut_temp_add hadd (fun hh => Instruction.noConfusion hh)
  | Range cmin cmax inv =>
    cases input_char with
    | none =>
      cases inv <;>
        (simp only [execInst, Option.some.injEq, Prod.mk.injEq] at h
         obtain ⟨rfl, rfl, rfl⟩ := h
         exact extendsOut_refl temp next (by simp))
    | some c =>
      cases inv with
      | false =>
        simp only [execInst] at h
        split at h
        · cases hadd : next.add_thread (pc + 1) with
          | none => rw [hadd] at h; simp at h
          | some n1 =>
            rw [hadd] at h
            simp only [Option.map_some', Option.some.injEq, Prod.mk.injEq] at h
            obtain ⟨rfl, rfl, rfl⟩ := h
            exact extendsOut_next_add hadd (fun hh => Instruction.noConfusion hh)
        · simp only [Option.some.injEq, Prod.mk.injEq] at h
          obtain ⟨rfl, rfl, rfl⟩ := h
          exact extendsOut_refl temp next (by simp)
      | true =>
        simp only [execInst] at h
        split at h
        · cases hadd : temp.add_thread (pc + 1) with
          | none => rw [hadd] at h; simp at h
          | some t1 =>
            rw [hadd] at h
            simp only [Option.map_some', Option.some.injEq, Prod.mk.injEq] at h
            obtain ⟨rfl, rfl, rfl⟩ := h
            exact extendsOut_temp_add hadd (fun hh => Instruction.noConfusion hh)
        · simp only [Option.some.injEq, Prod.mk.injEq] at h
          obtain ⟨rfl, rfl, rfl⟩ := h
          exact extendsOut_refl temp next (by simp)
  | RangeOption cmin cmax dest =>
    cases input_char with
    | none =>
      simp only [execInst, Option.some.injEq, Prod.mk.injEq] at h
      obtain ⟨rfl, rfl, rfl⟩ := h
      exact extendsOut_refl temp next (by simp)
    | some c =>
      simp only [execInst] at h
      split at h
      · cases hadd : next.add_thread dest with
        | none => rw [hadd] at h; simp at h
        | some n1 =>
          rw [hadd] at h
          simp only [Option.map_some', Option.some.injEq, Prod.mk.injEq] at h
          obtain ⟨rfl, rfl, rfl⟩ := h
          exact extendsOut_next_add hadd (fun hh => Instruction.noConfusion hh)
      · cases hadd : temp.add_thread (pc + 1) with
        | none => rw [hadd] at h; simp at h
        | some t1 =>
          rw [hadd] at h
          simp only [Option.map_some', Option.some.injEq, Prod.mk.injEq] at h
          obtain ⟨rfl, rfl, rfl⟩ := h
          exact extendsOut_temp_add hadd (fun hh => Instruction.noConfusion hh)
  | Jump dest =>
    simp only [execInst] at h
    cases hadd : temp.add_thread dest with
    | none => rw [hadd] at h; simp at h
    | some t1 =>
      rw [hadd] at h
      simp only [Option.map_some', Option.some.injEq, Prod.mk.injEq] at h
      obtain ⟨rfl, rfl, rfl⟩ := h
      exact extendsOut_temp_add hadd (fun hh => Instruction.noConfusion hh)
  | Split d1 d2 =>
    simp only [execInst] at h
    cases hadd1 : temp.add_thread d1 with
    | none => rw [hadd1] at h; simp at h
    | some t1 =>
      simp only [hadd1] at h
      cases hadd2 : t1.add_thread d2 with
      | none => rw [hadd2] at h; simp at h
      | some t2 =>
        rw [hadd2] at h
        simp only [Option.map_some', Option.some.injEq, Prod.mk.injEq] at h
        obtain ⟨rfl, rfl, rfl⟩ := h
        exact extendsOut_split_add hadd1 hadd2 (fun hh => Instruction.noConfusion hh)

theorem add_thread_ok_of_lt {tl : ThreadList} {x len : Nat}
    (hsz : tl.size = len) (hwf : wfTL tl) (hx : x < len) :
    ∃ tl', tl.add_thread x = some tl' ∧
      ∀ q, memBit tl' q = (memBit tl q || decide (q = x)) := by
  obtain ⟨tl', h1, h2, h3, h4, h5⟩ :=
    add_thread_le_spec (show x ≤ tl.size by omega)
      (show x / 64 < tl.threads.length by rw [hwf.1]; omega)
  exact ⟨tl', h1, h5⟩

/-- Under a valid program with `pc` holding `inst`, and temp/next lists of
capacity the program length, dispatching one instruction always succeeds,
and any bit added to the temp (resp. next) list is an epsilon (resp.
consuming) successor of the instruction at `pc`. -/
theorem execInst_spec {program : List Instruction} (hvalid : validProgram program)
    {pc : Nat} {inst : Instruction} (hget : program.get? pc = some inst)
    (input_char : Option Symbol) (temp next : ThreadList)
    (hts : temp.size = program.length) (hwt : wfTL temp)
    (hns : next.size = program.length) (hwn : wfTL next) :
    ∃ b t n, execInst inst pc input_char temp next = some (b, t, n) ∧
      ExtendsOut inst temp next b t n ∧
      (∀ q, memBit t q = true → memBit temp q = true ∨ q ∈ epsSuccs pc inst) ∧
      (∀ q, memBit n q = true → memBit next q = true ∨ q ∈ consSuccs pc inst) := by
  cases inst with
  | Match =>
    exact ⟨true, temp, next, rfl, extendsOut_refl temp next (by simp),
      fun q hq => Or.inl hq, fun q hq => Or.inl hq⟩
  | Die =>
    exact ⟨false, temp, next, rfl, extendsOut_refl temp next (by simp),
      fun q hq => Or.inl hq, fun q hq => Or.inl hq⟩
  | Consume =>
    cases input_char with
    | none =>
      exact ⟨false, temp, next, rfl, extendsOut_refl temp next (by simp),
        fun q hq => Or.inl hq, fun q hq => Or.inl hq⟩
    | some c =>
      have hlt : pc + 1 < program.length :=
        consSuccs_lt hvalid hget (pc + 1) (by simp [consSuccs])
      obtain ⟨n1, hadd, hbits⟩ := add_thread_ok_of_lt hns hwn hlt
      refine ⟨false, temp, n1, ?_, extendsOut_next_add hadd
        (fun hh => Instruction.noConfusion hh), fun q hq => Or.inl hq, ?_⟩
      · simp only [execInst]
        rw [hadd]
        rfl
      · intro q hq
        rw [hbits q] at hq
        simp only [Bool.or_eq_true, decide_eq_true_eq] at hq
        rcases hq with hq | rfl
        · exact Or.inl hq
        · exact Or.inr (by simp [consSuccs])
  | Char cc inv =>
    cases input_char with
    | none =>
      cases inv <;>
        exact ⟨false, temp, next, rfl, extendsOut_refl temp next (by simp),
          fun q hq => Or.inl hq, fun q hq => Or.inl hq⟩
    | some c =>
      cases inv with
      | false =>
        by_cases hc : c = cc
        · have hlt : pc + 1 < program.length :=
            consSuccs_lt hvalid hget (pc + 1) (by simp [consSuccs])
          obtain ⟨n1, hadd, hbits⟩ := add_thread_ok_of_lt hns hwn hlt
          refine ⟨false, temp, n1, ?_, extendsOut_next_add hadd
            (fun hh => Instruction.noConfusion hh), fun q hq => Or.inl hq, ?_⟩
          · simp only [execInst]
            rw [if_pos hc, hadd]
            rfl
          · intro q hq
            rw [hbits q] at hq
            simp only [Bool.or_eq_true, decide_eq_true_eq] at hq
            rcases hq with hq | rfl
            · exact Or.inl hq
            · exact Or.inr (by simp [consSuccs])
        · refine ⟨false, temp, next, ?_, extendsOut_refl temp next (by simp),
            fun q hq => Or.inl hq, fun q hq => Or.inl hq⟩
          simp only [execInst]
          rw [if_neg hc]
      | true =>
        by_cases hc : c ≠ cc
        · have hlt : pc + 1 < program.length :=
            epsSuccs_lt hvalid hget (pc + 1) (by simp [epsSuccs])
          obtain ⟨t1, hadd, hbits⟩ := add_thread_ok_of_lt hts hwt hlt
          refine ⟨false, t1, next, ?_, extendsOut_temp_add hadd
            (fun hh => Instruction.noConfusion hh), ?_, fun q hq => Or.inl hq⟩
          · simp only [execInst]
            rw [if_pos hc, hadd]
            rfl
          · intro q hq
            rw [hbits q] at hq
            simp only [Bool.or_eq_true, decide_eq_true_eq] at hq
            rcases hq with hq | rfl
            · exact Or.inl hq
            · exact Or.inr (by simp [epsSuccs])
        · refine ⟨false, temp, next, ?_, extendsOut_refl temp next (by simp),
            fun q hq => Or.inl hq, fun q hq => Or.inl hq⟩
          simp only [execInst]
          rw [if_neg hc]
  | CharOption cc dest =>
    cases input_char with
    | none =>
      exact ⟨false, temp, next, rfl, extendsOut_refl temp next (by simp),
        fun q hq => Or.inl hq, fun q hq => Or.inl hq⟩
    | some c =>
      by_cases hc : c = cc
      · have hlt : dest < program.length :=
          consSuccs_lt hvalid hget dest (by simp [consSuccs])
        obtain ⟨n1, hadd, hbits⟩ := add_thread_ok_of_lt hns hwn hlt
        refine ⟨false, temp, n1, ?_, extendsOut_next_add hadd
          (fun hh => Instruction.noConfusion hh), fun q hq => Or.inl hq, ?_⟩
        · simp only [execInst]
          rw [if_pos hc, hadd]
          rfl
        · intro q hq
          rw [hbits q] at hq
          simp only [Bool.or_eq_true, decide_eq_true_eq] at hq
          rcases hq with hq | rfl
          · exact Or.inl hq
          · exact Or.inr (by simp [consSuccs])
      · have hlt : pc + 1 < program.length :=
          epsSuccs_lt hvalid hget (pc + 1) (by simp [epsSuccs])
        obtain ⟨t1, hadd, hbits⟩ := add_thread_ok_of_lt hts hwt hlt
        refine ⟨false, t1, next, ?_, extendsOut_temp_add hadd
          (fun hh => Instruction.noConfusion hh), ?_, fun q hq => Or.inl hq⟩
        · simp only [execInst]
          rw [if_neg hc, hadd]
          rfl
        · intro q hq
          rw [hbits q] at hq
          simp only [Bool.or_eq_true, decide_eq_true_eq] at hq
          rcases hq with hq | rfl
          · exact Or.inl hq
          · exact Or.inr (by simp [epsSuccs])
  | Range cmin cmax inv =>
    cases input_char with
    | none =>
      cases inv <;>
        exact ⟨false, temp, next, rfl, extendsOut_refl temp next (by simp),
          fun q hq => Or.inl hq, fun q hq => Or.inl hq⟩
    | some c =>
      cases inv with
      | false =>
        by_cases hc : cmin ≤ c ∧ c ≤ cmax
        · have hlt : pc + 1 < program.length :=
            consSuccs_lt hvalid hget (pc + 1) (by simp [consSuccs])
          obtain ⟨n1, hadd, hbits⟩ := add_thread_ok_of_lt hns hwn hlt
          refine ⟨false, temp, n1, ?_, extendsOut_next_add hadd
            (fun hh => Instruction.noConfusion hh), fun q hq => Or.inl hq, ?_⟩
          · simp only [execInst]
            rw [if_pos hc, hadd]
            rfl
          · intro q hq
            rw [hbits q] at hq
            simp only [Bool.or_eq_true, decide_eq_true_eq] at hq
            rcases hq with hq | rfl
            · exact Or.inl hq
            · exact Or.inr (by simp [consSuccs])
        · refine ⟨false, temp, next, ?_, extendsOut_refl temp next (by simp),
            fun q hq => Or.inl hq, fun q hq => Or.inl hq⟩
          simp only [execInst]
          rw [if_neg hc]
      | true =>
        by_cases hc : c < cmin ∨ cmax < c
        · have hlt : pc + 1 < program.length :=
            epsSuccs_lt hvalid hget (pc + 1) (by simp [epsSuccs])
          obtain ⟨t1, hadd, hbits⟩ := add_thread_ok_of_lt hts hwt hlt
          refine ⟨false, t1, next, ?_, extendsOut_temp_add hadd
            (fun hh => Instruction.noConfusion hh), ?_, fun q hq => Or.inl hq⟩
          · simp only [execInst]
            rw [if_pos hc, hadd]
            rfl
          · intro q hq
            rw [hbits q] at hq
            simp only [Bool.or_eq_true, decide_eq_true_eq] at hq
            rcases hq with hq | rfl
            · exact Or.inl hq
            · exact Or.inr (by simp [epsSuccs])
        · refine ⟨false, temp, next, ?_, extendsOut_refl temp next (by simp),
            fun q hq => Or.inl hq, fun q hq => Or.inl hq⟩
          simp only [execInst]
          rw [if_neg hc]
  | RangeOption cmin cmax dest =>
    cases input_char with
    | none =>
      exact ⟨false, temp, next, rfl, extendsOut_refl temp next (by simp),
        fun q hq => Or.inl hq, fun q hq => Or.inl hq⟩
    | some c =>
      by_cases hc : cmin ≤ c ∧ c ≤ cmax
      · have hlt : dest < program.length :=
          consSuccs_lt hvalid hget dest (by simp [consSuccs])
        obtain ⟨n1, hadd, hbits⟩ := add_thread_ok_of_lt hns hwn hlt
        refine ⟨false, temp, n1, ?_, extendsOut_next_add hadd
          (fun hh => Instruction.noConfusion hh), fun q hq => Or.inl hq, ?_⟩
        · simp only [execInst]
          rw [if_pos hc, hadd]
          rfl
        · intro q hq
          rw [hbits q] at hq
          simp only [Bool.or_eq_true, decide_eq_true_eq] at hq
          rcases hq with hq | rfl
          · exact Or.inl hq
          · exact Or.inr (by simp [consSuccs])
      · have hlt : pc + 1 < program.length :=
          epsSuccs_lt hvalid hget (pc + 1) (by simp [epsSuccs])
        obtain ⟨t1, hadd, hbits⟩ := add_thread_ok_of_lt hts hwt hlt
        refine ⟨false, t1, next, ?_, extendsOut_temp_add hadd
          (fun hh => Instruction.noConfusion hh), ?_, fun q hq => Or.inl hq⟩
        · simp only [execInst]
          rw [if_neg hc, hadd]
          rfl
        · intro q hq
          rw [hbits q] at hq
          simp only [Bool.or_eq_true, decide_eq_true_eq] at hq
          rcases hq with hq | rfl
          · exact Or.inl hq
          · exact Or.inr (by simp [epsSuccs])
  | Jump dest =>
    have hlt : dest < program.length :=
      epsSuccs_lt hvalid hget dest (by simp [epsSuccs])
    obtain ⟨t1, hadd, hbits⟩ := add_thread_ok_of_lt hts hwt hlt
    refine ⟨false, t1, next, ?_, extendsOut_temp_add hadd
      (fun hh => Instruction.noConfusion hh), ?_, fun q hq => Or.inl hq⟩
    · simp only [execInst]
      rw [hadd]
      rfl
    · intro q hq
      rw [hbits q] at hq
      simp only [Bool.or_eq_true, decide_eq_true_eq] at hq
      rcases hq with hq | rfl
      · exact Or.inl hq
      · exact Or.inr (by simp [epsSuccs])
  | Split d1 d2 =>
    have hlt1 : d1 < program.length :=
      epsSuccs_lt hvalid hget d1 (by simp [epsSuccs])
    have hlt2 : d2 < program.length :=
      epsSuccs_lt hvalid hget d2 (by simp [epsSuccs])
    obtain ⟨t1, hadd1, hbits1⟩ := add_thread_ok_of_lt hts hwt hlt1
    obtain ⟨hsz1, hlen1, hwf1, -, -⟩ := add_thread_some_spec hadd1
    obtain ⟨t2, hadd2, hbits2⟩ :=
      add_thread_ok_of_lt (hsz1.trans hts) (hwf1 hwt) hlt2
    refine ⟨false, t2, next, ?_, extendsOut_split_add hadd1 hadd2
      (fun hh => Instruction.noConfusion hh), ?_, fun q hq => Or.inl hq⟩
    · simp only [execInst]
      rw [hadd1]
      simp only [hadd2, Option.map_some']
    · intro q hq
      rw [hbits2 q] at hq
      simp only [Bool.or_eq_true, decide_eq_true_eq] at hq
      rcases hq with hq | rfl
      · rw [hbits1 q] at hq
        simp only [Bool.or_eq_true, decide_eq_true_eq] at hq
        rcases hq with hq | rfl
        · exact Or.inl hq
        · exact Or.inr (by simp [epsSuccs])
      · exact Or.inr (by simp [epsSuccs])

/-! ### The dispatch loop refines list processing over the iterator -/

theorem epsilonLoop_unfold_succ {program : List Instruction} {ic : Option Symbol}
    {f : Nat} {current next : ThreadList} (h : ¬ current.is_empty = true) :
    epsilonLoop program ic (f + 1) current next =
      match dispatchFrom program ic current (current.size + 1) 0
          (ThreadList.new program.length) next with
      | none => .panicked
      | some (true, _, _) => .ok none
      | some (false, temp, next2) => epsilonLoop program ic f temp next2 := by
  rw [epsilonLoop, if_neg h]

theorem iterFrom_unfold {current : ThreadList} {gas index : Nat} {w : Nat}
    (hidx : index ≤ current.size)
    (hw : current.threads[index / 64]? = some w) :
    current.iterFrom (gas + 1) index =
      (if w >>> (index - index / 64 * 64) = 0 then
        current.iterFrom gas ((index / 64 + 1) * 64)
      else
        match current.iterFrom gas
            ((trailingZeros (w >>> (index - index / 64 * 64)) +
              (index - index / 64 * 64) + index / 64 * 64) + 1) with
        | none => none
        | some rest =>
            some ((trailingZeros (w >>> (index - index / 64 * 64)) +
              (index - index / 64 * 64) + index / 64 * 64) :: rest)) := by
  rw [ThreadList.iterFrom, if_pos hidx]
  simp only [List.get?_eq_getElem?, hw]

theorem dispatchFrom_unfold {program : List Instruction} {ic : Option Symbol}
    {current : ThreadList} {gas index : Nat} {w : Nat} {temp next : ThreadList}
    (hidx : index ≤ current.size)
    (hw : current.threads[index / 64]? = some w) :
    dispatchFrom program ic current (gas + 1) index temp next =
      (if w >>> (index - index / 64 * 64) = 0 then
        dispatchFrom program ic current gas ((index / 64 + 1) * 64) temp next
      else
        match program.get? (trailingZeros (w >>> (index - index / 64 * 64)) +
            (index - index / 64 * 64) + index / 64 * 64) with
        | none => none
        | some inst =>
            match execInst inst (trailingZeros (w >>> (index - index / 64 * 64)) +
                (index - index / 64 * 64) + index / 64 * 64) ic temp next with
            | none => none
            | some (true, t, n) => some (true, t, n)
            | some (false, t, n) =>
                dispatchFrom program ic current gas
                  ((trailingZeros (w >>> (index - index / 64 * 64)) +
                    (index - index / 64 * 64) + index / 64 * 64) + 1) t n) := by
  rw [dispatchFrom, if_pos hidx]
  simp only [List.get?_eq_getElem?, hw]

/-- Whenever the iterator itself would succeed from some start index, the
fused dispatch loop computes exactly the list-level processing of the yielded
program counters. -/
theorem dispatchFrom_eq_processList (program : List Instruction)
    (input_char : Option Symbol) (current : ThreadList) :
    ∀ gas index temp next l,
      current.iterFrom gas index = some l →
      dispatchFrom program input_char current gas index temp next
        = processList program input_char l temp next := by
  intro gas
  induction gas with
  | zero =>
    intro index temp next l hiter
    by_cases hidx : index ≤ current.size
    · rw [ThreadList.iterFrom, if_pos hidx] at hiter
      exact Option.noConfusion hiter
    · rw [iterFrom_stop 0 hidx] at hiter
      obtain rfl := (Option.some.inj hiter).symm
      rw [dispatchFrom, if_neg hidx]
      rfl
  | succ gas ih =>
    intro index temp next l hiter
    by_cases hidx : index ≤ current.size
    case neg =>
      rw [iterFrom_stop (gas + 1) hidx] at hiter
      obtain rfl := (Option.some.inj hiter).symm
      rw [dispatchFrom, if_neg hidx]
      rfl
    case pos =>
      cases hw : current.threads[index / 64]? with
      | none =>
        exfalso
        rw [ThreadList.iterFrom, if_pos hidx] at hiter
        simp only [List.get?_eq_getElem?, hw] at hiter
        exact Option.noConfusion hiter
      | some w =>
        rw [iterFrom_unfold hidx hw] at hiter
        rw [dispatchFrom_unfold hidx hw]
        by_cases hr : w >>> (index - index / 64 * 64) = 0
        · rw [if_pos hr] at hiter
          rw [if_pos hr]
          exact ih _ _ _ _ hiter
        · rw [if_neg hr] at hiter
          rw [if_neg hr]
          cases hrec : current.iterFrom gas
              ((trailingZeros (w >>> (index - index / 64 * 64)) +
                (index - index / 64 * 64) + index / 64 * 64) + 1) with
          | none =>
            exfalso
            simp only [hrec] at hiter
            exact Option.noConfusion hiter
          | some rest =>
            simp only [hrec] at hiter
            obtain rfl := (Option.some.inj hiter).symm
            cases hget : program.get? (trailingZeros (w >>> (index - index / 64 * 64)) +
                (index - index / 64 * 64) + index / 64 * 64) with
            | none => simp only [processList, hget]
            | some inst =>
              cases hexec : execInst inst (trailingZeros (w >>> (index - index / 64 * 64)) +
                  (index - index / 64 * 64) + index / 64 * 64) input_char temp next with
              | none => simp only [processList, hget, hexec]
              | some bn =>
                obtain ⟨b, t, n⟩ := bn
                cases b with
                | true => simp only [processList, hget, hexec]
                | false =>
                  simp only [processList, hget, hexec]
                  exact ih _ _ _ _ hrec

/-- Processing a list of in-range program counters under a valid program
never panics: it yields a flag and two lists that keep the program-length
capacity and well-formedness, and every bit recorded in the output temp list
was already there or is an epsilon successor of some processed counter. -/
theorem processList_spec {program : List Instruction} (hvalid : validProgram program)
    (input_char : Option Symbol) :
    ∀ (l : List Nat) (temp next : ThreadList),
      (∀ pc ∈ l, pc < program.length) →
      temp.size = program.length → wfTL temp →
      next.size = program.length → wfTL next →
      ∃ b t n, processList program input_char l temp next = some (b, t, n) ∧
        t.size = program.length ∧ wfTL t ∧
        n.size = program.length ∧ wfTL n ∧
        (∀ q, memBit t q = true → memBit temp q = true ∨
          ∃ pc ∈ l, ∃ inst, program.get? pc = some inst ∧ q ∈ epsSuccs pc inst) ∧
        (∀ q, memBit n q = true → memBit next q = true ∨
          ∃ pc ∈ l, ∃ inst, program.get? pc = some inst ∧ q ∈ consSuccs pc inst) := by
  intro l
  induction l with
  | nil =>
    intro temp next hl hts hwt hns hwn
    exact ⟨false, temp, next, rfl, hts, hwt, hns, hwn,
      fun q hq => Or.inl hq, fun q hq => Or.inl hq⟩
  | cons pc rest ih =>
    intro temp next hl hts hwt hns hwn
    have hpc : pc < program.length := hl pc (by simp)
    obtain ⟨inst, hget⟩ : ∃ inst, program.get? pc = some inst := by
      rw [List.get?_eq_getElem?]
      exact ⟨program[pc], List.getElem?_eq_getElem hpc⟩
    obtain ⟨b, t1, n1, hexec, hext, hchar_t, hchar_n⟩ :=
      execInst_spec hvalid hget input_char temp next hts hwt hns hwn
    obtain ⟨e1, e2, e3, e4, e5, e6, e7, e8, e9, e10, e11⟩ := hext
    cases b with
    | true =>
      refine ⟨true, t1, n1, ?_, e1.trans hts, e5 hwt, e2.trans hns, e6 hwn, ?_, ?_⟩
      · simp only [processList, hget, hexec]
      · intro q hq
        rcases hchar_t q hq with hq | hq
        · exact Or.inl hq
        · exact Or.inr ⟨pc, by simp, inst, hget, hq⟩
      · intro q hq
        rcases hchar_n q hq with hq | hq
        · exact Or.inl hq
        · exact Or.inr ⟨pc, by simp, inst, hget, hq⟩
    | false =>
      obtain ⟨b2, t2, n2, hrec, ht2, hwt2, hn2, hwn2, hchar2, hcharn2⟩ :=
        ih t1 n1 (fun p hp => hl p (by simp [hp])) (e1.trans hts) (e5 hwt)
          (e2.trans hns) (e6 hwn)
      refine ⟨b2, t2, n2, ?_, ht2, hwt2, hn2, hwn2, ?_, ?_⟩
      · simp only [processList, hget, hexec]
        exact hrec
      · intro q hq
        rcases hchar2 q hq with hq | ⟨p, hp, inst2, hget2, hsucc⟩
        · rcases hchar_t q hq with hq | hq
          · exact Or.inl hq
          · exact Or.inr ⟨pc, by simp, inst, hget, hq⟩
        · exact Or.inr ⟨p, by simp [hp], inst2, hget2, hsucc⟩
      · intro q hq
        rcases hcharn2 q hq with hq | ⟨p, hp, inst2, hget2, hsucc⟩
        · rcases hchar_n q hq with hq | hq
          · exact Or.inl hq
          · exact Or.inr ⟨pc, by simp, inst, hget, hq⟩
        · exact Or.inr ⟨p, by simp [hp], inst2, hget2, hsucc⟩

/-- A bound on the recorded bits of a thread list needs only be checked
below the bitset's word count. -/
theorem memBit_bound_of_forall_lt {tl : ThreadList} {bound : Nat}
    (hlen : ∀ q, q < 64 * tl.threads.length → memBit tl q = true → q < bound) :
    ∀ q, memBit tl q = true → q < bound := by
  intro q hq
  by_cases hcase : q < 64 * tl.threads.length
  · exact hlen q hcase hq
  · exfalso
    push_neg at hcase
    rw [memBit_false_of_no_word (by omega)] at hq
    cases hq

/-- Core of the amended C4 bound, by induction on a ranking value: if a
measure `μ` strictly decreases along every epsilon transition and every
pending thread of the current list has measure below `k ≤ fuel`, the epsilon
loop reaches quiescence (or a match) within the fuel. -/
theorem epsilonLoop_ok_of_mu {program : List Instruction} (input_char : Option Symbol)
    (μ : Nat → Nat) (hvalid : validProgram program)
    (hmod : program.length % 64 ≠ 0)
    (hrank : ∀ pc inst, program.get? pc = some inst →
      ∀ q ∈ epsSuccs pc inst, μ q < μ pc) :
    ∀ k fuel, k ≤ fuel → ∀ current next,
      current.size = program.length → wfTL current →
      (∀ q, memBit current q = true → q < program.length) →
      next.size = program.length → wfTL next →
      (∀ q, memBit current q = true → μ q < k) →
      ∃ r, epsilonLoop program input_char fuel current next = .ok r := by
  intro k
  induction k with
  | zero =>
    intro fuel hk current next hsz hwf hbits hns hwn hmu
    have hempty : current.is_empty = true :=
      (is_empty_iff_no_memBit hwf).2 (by
        intro q
        cases hq : memBit current q
        · rfl
        · exact absurd (hmu q hq) (by omega))
    rw [epsilonLoop.eq_def, if_pos hempty]
    exact ⟨some next, rfl⟩
  | succ k ih =>
    intro fuel hk current next hsz hwf hbits hns hwn hmu
    by_cases hempty : current.is_empty = true
    · rw [epsilonLoop.eq_def, if_pos hempty]
      exact ⟨some next, rfl⟩
    · obtain ⟨f, rfl⟩ : ∃ f, fuel = f + 1 := ⟨fuel - 1, by omega⟩
      obtain ⟨l, hiter, hpw, hmem⟩ :=
        iterFrom_spec hwf (by rw [hsz]; exact hmod)
          (fun q hq => by rw [hsz]; exact hbits q hq)
          (current.size + 1) 0 (by omega)
      have hR := dispatchFrom_eq_processList program input_char current
        (current.size + 1) 0 (ThreadList.new program.length) next l hiter
      have hl_lt : ∀ pc ∈ l, pc < program.length := by
        intro p hp
        exact hbits p ((hmem p).1 hp).1
      obtain ⟨b, t, n, hproc, hts, hwt, hns2, hwn2, hchar, -⟩ :=
        processList_spec hvalid input_char l (ThreadList.new program.length) next
          hl_lt rfl (wfTL_new _) hns hwn
      rw [epsilonLoop_unfold_succ hempty, hR, hproc]
      cases b with
      | true => exact ⟨none, rfl⟩
      | false =>
        refine ih f (by omega) t n hts hwt ?_ hns2 hwn2 ?_
        · intro q hq
          rcases hchar q hq with hq | ⟨p, hp, inst, hget, hsucc⟩
          · rw [memBit_new] at hq
            cases hq
          · exact epsSuccs_lt hvalid hget q hsucc
        · intro q hq
          rcases hchar q hq with hq | ⟨p, hp, inst, hget, hsucc⟩
          · rw [memBit_new] at hq
            cases hq
          · have hmup : μ p < k + 1 := hmu p ((hmem p).1 hp).1
            have : μ q < μ p := hrank p inst hget q hsucc
            omega

/-- C4, amended: the per-position inner loop of `execution_step` is NOT
bounded by `program.len()` iterations for every valid program (a valid
program with the epsilon cycle `[Jump 0, ..., Match]` loops forever, see the
counterexample); the bound holds under the additional hypothesis of a
ranking measure `μ` on program counters, bounded by the program length and
strictly decreasing along every epsilon transition (same-position thread
additions), which rules out epsilon cycles.  Under such a measure, from any
well-formed current list of program-length capacity whose pending pcs are
in range (and a program length not a multiple of 64, which avoids the
iterator out-of-bounds panic), the loop reaches a match or quiescence within
at most `program.len()` iterations and performs no fallible operation. -/
theorem epsilon_loop_quiescent_of_ranking (program : List Instruction)
    (input_char : Option Symbol) (μ : Nat → Nat)
    (hvalid : validProgram program) (hmod : program.length % 64 ≠ 0)
    (hrank : ∀ pc inst, program.get? pc = some inst →
      ∀ q ∈ epsSuccs pc inst, μ q < μ pc)
    (hbound : ∀ pc, pc < program.length → μ pc < program.length)
    (current next : ThreadList)
    (hsz : current.size = program.length) (hwf : wfTL current)
    (hbits : ∀ q, memBit current q = true → q < program.length)
    (hns : next.size = program.length) (hwn : wfTL next) :
    ∃ r, epsilonLoop program input_char program.length current next = .ok r :=
  epsilonLoop_ok_of_mu input_char μ hvalid hmod hrank program.length program.length
    (le_refl _) current next hsz hwf hbits hns hwn
    (fun q hq => hbound q (hbits q hq))

theorem epsilon_loop_quiescent_witness :
    ∃ r, epsilonLoop [.Char 'a' true, .Match] (some 'b')
      (List.length [Instruction.Char 'a' true, Instruction.Match])
      (ThreadList.mk 2 [1]) (ThreadList.new 2) = .ok r := by
  refine epsilon_loop_quiescent_of_ranking [.Char 'a' true, .Match] (some 'b')
    (fun q => if q = 0 then 1 else 0) (by decide) (by decide) ?_ (by decide)
    (ThreadList.mk 2 [1]) (ThreadList.new 2) rfl (by decide)
    (memBit_bound_of_forall_lt (by decide)) rfl (wfTL_new 2)
  intro pc inst hget q hq
  have hpc : pc < 2 := by
    rw [List.get?_eq_getElem?] at hget
    have := (List.getElem?_eq_some_iff.1 hget).1
    simpa using this
  interval_cases pc
  · obtain rfl := Option.some.inj hget
    simp only [epsSuccs, List.mem_singleton] at hq
    subst hq
    decide
  · obtain rfl := Option.some.inj hget
    simp [epsSuccs] at hq

/-! ### Appending input preserves a match (C10): supporting lemmas -/

theorem pairwise_lt_sublist_of_subset :
    ∀ {lS lN : List Nat}, List.Pairwise (fun a b => a < b) lN →
      List.Pairwise (fun a b => a < b) lS →
      (∀ x ∈ lN, x ∈ lS) → lN.Sublist lS := by
  intro lS
  induction lS with
  | nil =>
    intro lN _ _ hsub
    cases lN with
    | nil => exact List.Sublist.refl []
    | cons q lN' => exact absurd (hsub q (by simp)) (by simp)
  | cons p rest ih =>
    intro lN hpwN hpwS hsub
    cases lN with
    | nil => exact List.nil_sublist _
    | cons q lN' =>
      rw [List.pairwise_cons] at hpwN hpwS
      by_cases hqp : q = p
      · subst hqp
        refine List.Sublist.cons₂ q (ih hpwN.2 hpwS.2 ?_)
        intro x hx
        have hxq : q < x := hpwN.1 x hx
        rcases List.mem_cons.1 (hsub x (by simp [hx])) with rfl | hxr
        · omega
        · exact hxr
      · have hq_rest : q ∈ rest := by
          rcases List.mem_cons.1 (hsub q (by simp)) with rfl | h
          · exact absurd rfl hqp
          · exact h
        have hpq : p < q := hpwS.1 q hq_rest
        refine List.Sublist.cons p (ih (List.pairwise_cons.2 hpwN) hpwS.2 ?_)
        intro x hx
        rcases List.mem_cons.1 hx with rfl | hx'
        · exact hq_rest
        · have hqx : q < x := hpwN.1 x hx'
          rcases List.mem_cons.1 (hsub x (by simp [hx'])) with rfl | h
          · omega
          · exact h

/-- When the capacity is not a multiple of 64, `add_thread` never panics:
out-of-range pcs are dropped and in-range pcs always have their word. -/
theorem add_thread_total {tl : ThreadList} (hwf : wfTL tl)
    (hmod : tl.size % 64 ≠ 0) (x : Nat) :
    ∃ tl', tl.add_thread x = some tl' := by
  by_cases hgt : x > tl.size
  · exact ⟨tl, add_thread_gt hgt⟩
  · obtain ⟨tl', h, -⟩ :=
      add_thread_le_spec (show x ≤ tl.size by omega)
        (show x / 64 < tl.threads.length by rw [hwf.1]; omega)
    exact ⟨tl', h⟩

/-- Dispatching the same instruction with no input symbol (temp-side) versus
with an input symbol present, over a larger temp list of the same capacity:
every bit of the no-input result's temp list appears in the with-input
result's temp list.  (With no input symbol only `Jump` and `Split` add temp
bits, and both do so identically in the two runs.) -/
theorem execInst_temp_mono {inst : Instruction} {pc : Nat} {c : Symbol}
    {tempN nextN tempS nextS : ThreadList} {bN : Bool} {tN nN : ThreadList}
    {bS : Bool} {tS nS : ThreadList}
    (hsz : tempN.size = tempS.size)
    (hlen : tempN.threads.length = tempS.threads.length)
    (hsub : ∀ q, memBit tempN q = true → memBit tempS q = true)
    (hN : execInst inst pc none tempN nextN = some (bN, tN, nN))
    (hS : execInst inst pc (some c) tempS nextS = some (bS, tS, nS)) :
    ∀ q, memBit tN q = true → memBit tS q = true := by
  cases inst with
  | Match =>
    simp only [execInst, Option.some.injEq, Prod.mk.injEq] at hN hS
    obtain ⟨rfl, rfl, rfl⟩ := hN
    obtain ⟨rfl, rfl, rfl⟩ := hS
    exact hsub
  | Die =>
    simp only [execInst, Option.some.injEq, Prod.mk.injEq] at hN hS
    obtain ⟨rfl, rfl, rfl⟩ := hN
    obtain ⟨rfl, rfl, rfl⟩ := hS
    exact hsub
  | Consume =>
    simp only [execInst, Option.some.injEq, Prod.mk.injEq,
      Option.map_eq_some'] at hN hS
    obtain ⟨rfl, rfl, rfl⟩ := hN
    obtain ⟨n0, -, rfl, rfl, rfl⟩ := hS
    exact hsub
  | Char ch inv =>
    cases inv with
    | false =>
      simp only [execInst, Option.some.injEq, Prod.mk.injEq] at hN
      obtain ⟨rfl, rfl, rfl⟩ := hN
      simp only [execInst] at hS
      by_cases hc : c = ch
      · simp only [if_pos hc, Option.map_eq_some', Prod.mk.injEq] at hS
        obtain ⟨n0, -, rfl, rfl, rfl⟩ := hS
        exact hsub
      · simp only [if_neg hc, Option.some.injEq, Prod.mk.injEq] at hS
        obtain ⟨rfl, rfl, rfl⟩ := hS
        exact hsub
    | true =>
      simp only [execInst, Option.some.injEq, Prod.mk.injEq] at hN
      obtain ⟨rfl, rfl, rfl⟩ := hN
      simp only [execInst] at hS
      by_cases hc : c ≠ ch
      · simp only [if_pos hc, Option.map_eq_some', Prod.mk.injEq] at hS
        obtain ⟨t0, haddS, rfl, rfl, rfl⟩ := hS
        obtain ⟨-, -, -, hpres, -⟩ := add_thread_some_spec haddS
        exact fun q hq => hpres q (hsub q hq)
      · simp only [if_neg hc, Option.some.injEq, Prod.mk.injEq] at hS
        obtain ⟨rfl, rfl, rfl⟩ := hS
        exact hsub
  | CharOption ch dest =>
    simp only [execInst, Option.some.injEq, Prod.mk.injEq] at hN
    obtain ⟨rfl, rfl, rfl⟩ := hN
    simp only [execInst] at hS
    by_cases hc : c = ch
    · simp only [if_pos hc, Option.map_eq_some', Prod.mk.injEq] at hS
      obtain ⟨n0, -, rfl, rfl, rfl⟩ := hS
      exact hsub
    · simp only [if_neg hc, Option.map_eq_some', Prod.mk.injEq] at hS
      obtain ⟨t0, haddS, rfl, rfl, rfl⟩ := hS
      obtain ⟨-, -, -, hpres, -⟩ := add_thread_some_spec haddS
      exact fun q hq => hpres q (hsub q hq)
  | Range cmin cmax inv =>
    cases inv with
    | false =>
      simp only [execInst, Option.some.injEq, Prod.mk.injEq] at hN
      obtain ⟨rfl, rfl, rfl⟩ := hN
      simp only [execInst] at hS
      by_cases hc : cmin ≤ c ∧ c ≤ cmax
      · simp only [if_pos hc, Option.map_eq_some', Prod.mk.injEq] at hS
        obtain ⟨n0, -, rfl, rfl, rfl⟩ := hS
        exact hsub
      · simp only [if_neg hc, Option.some.injEq, Prod.mk.injEq] at hS
        obtain ⟨rfl, rfl, rfl⟩ := hS
        exact hsub
    | true =>
      simp only [execInst, Option.some.injEq, Prod.mk.injEq] at hN
      obtain ⟨rfl, rfl, rfl⟩ := hN
      simp only [execInst] at hS
      by_cases hc : c < cmin ∨ cmax < c
      · simp only [if_pos hc, Option.map_eq_some', Prod.mk.injEq] at hS
        obtain ⟨t0, haddS, rfl, rfl, rfl⟩ := hS
        obtain ⟨-, -, -, hpres, -⟩ := add_thread_some_spec haddS
        exact fun q hq => hpres q (hsub q hq)
      · simp only [if_neg hc, Option.some.injEq, Prod.mk.injEq] at hS
        obtain ⟨rfl, rfl, rfl⟩ := hS
        exact hsub
  | RangeOption cmin cmax dest =>
    simp only [execInst, Option.some.injEq, Prod.mk.injEq] at hN
    obtain ⟨rfl, rfl, rfl⟩ := hN
    simp only [execInst] at hS
    by_cases hc : cmin ≤ c ∧ c ≤ cmax
    · simp only [if_pos hc, Option.map_eq_some', Prod.mk.injEq] at hS
      obtain ⟨n0, -, rfl, rfl, rfl⟩ := hS
      exact hsub
    · simp only [if_neg hc, Option.map_eq_some', Prod.mk.injEq] at hS
      obtain ⟨t0, haddS, rfl, rfl, rfl⟩ := hS
      obtain ⟨-, -, -, hpres, -⟩ := add_thread_some_spec haddS
      exact fun q hq => hpres q (hsub q hq)
  | Jump dest =>
    simp only [execInst, Option.map_eq_some', Prod.mk.injEq] at hN hS
    obtain ⟨t0, haddN, rfl, rfl, rfl⟩ := hN
    obtain ⟨s0, haddS, rfl, rfl, rfl⟩ := hS
    obtain ⟨tS', haddS', hsub'⟩ := add_thread_pair_mono hsz hlen hsub haddN
    rw [haddS] at haddS'
    obtain rfl := Option.some.inj haddS'
    exact hsub'
  | Split d1 d2 =>
    simp only [execInst] at hN hS
    cases haddN1 : tempN.add_thread d1 with
    | none =>
      simp only [haddN1] at hN
      exact Option.noConfusion hN
    | some t1 =>
      simp only [haddN1, Option.map_eq_some', Prod.mk.injEq] at hN
      obtain ⟨t2, haddN2, rfl, rfl, rfl⟩ := hN
      obtain ⟨s1, haddS1, hsub1⟩ := add_thread_pair_mono hsz hlen hsub haddN1
      obtain ⟨hsz1N, hlen1N, -, -, -⟩ := add_thread_some_spec haddN1
      obtain ⟨hsz1S, hlen1S, -, -, -⟩ := add_thread_some_spec haddS1
      obtain ⟨s2, haddS2, hsub2⟩ :=
        add_thread_pair_mono (by rw [hsz1N, hsz1S, hsz])
          (by rw [hlen1N, hlen1S, hlen]) hsub1 haddN2
      simp only [haddS1, Option.map_eq_some', Prod.mk.injEq] at hS
      obtain ⟨s2', haddS2', rfl, rfl, rfl⟩ := hS
      rw [haddS2] at haddS2'
      obtain rfl := Option.some.inj haddS2'
      exact hsub2

/-- Processing a sublist of pcs with no input symbol versus the full list
with an input symbol, over a larger temp list: an early match on the
no-input side forces one on the with-input side, and if the with-input side
completes without a match then so does the no-input side, with a smaller
resulting temp list. -/
theorem processList_pair_mono {program : List Instruction}
    (hvalid : validProgram program) (c : Symbol) :
    ∀ {lN lS : List Nat}, lN.Sublist lS →
      (∀ pc ∈ lS, pc < program.length) →
      ∀ tempN nextN tempS nextS bN tN nN,
        tempN.size = program.length → wfTL tempN →
        nextN.size = program.length → wfTL nextN →
        tempS.size = program.length → wfTL tempS →
        nextS.size = program.length → wfTL nextS →
        (∀ q, memBit tempN q = true → memBit tempS q = true) →
        processList program none lN tempN nextN = some (bN, tN, nN) →
        ∃ bS tS nS, processList program (some c) lS tempS nextS = some (bS, tS, nS) ∧
          (bN = true → bS = true) ∧
          (bS = false → bN = false ∧ ∀ q, memBit tN q = true → memBit tS q = true) := by
  intro lN lS hsl
  induction hsl with
  | slnil =>
    intro hlS tempN nextN tempS nextS bN tN nN h1 h2 h3 h4 h5 h6 h7 h8 hsub hN
    simp only [processList, Option.some.injEq, Prod.mk.injEq] at hN
    obtain ⟨rfl, rfl, rfl⟩ := hN
    exact ⟨false, tempS, nextS, rfl, fun h => Bool.noConfusion h, fun _ => ⟨rfl, hsub⟩⟩
  | cons p hsl2 ih =>
    intro hlS tempN nextN tempS nextS bN tN nN h1 h2 h3 h4 h5 h6 h7 h8 hsub hN
    have hp : p < program.length := hlS p (by simp)
    obtain ⟨inst, hget⟩ : ∃ inst, program.get? p = some inst := by
      rw [List.get?_eq_getElem?]
      exact ⟨program[p], List.getElem?_eq_getElem hp⟩
    obtain ⟨bSi, tS1, nS1, hexecS, hextS, -, -⟩ :=
      execInst_spec hvalid hget (some c) tempS nextS h5 h6 h7 h8
    obtain ⟨f1, f2, f3, f4, f5, f6, f7, f8, f9, f10, f11⟩ := hextS
    cases bSi with
    | true =>
      refine ⟨true, tS1, nS1, ?_, fun _ => rfl, fun h => Bool.noConfusion h⟩
      simp only [processList, hget, hexecS]
    | false =>
      obtain ⟨bS, tS, nS, hrecS, hbt, hbf⟩ :=
        ih (fun x hx => hlS x (by simp [hx])) tempN nextN tS1 nS1 bN tN nN
          h1 h2 h3 h4 (f1.trans h5) (f5 h6) (f2.trans h7) (f6 h8)
          (fun q hq => f7 q (hsub q hq)) hN
      refine ⟨bS, tS, nS, ?_, hbt, hbf⟩
      simp only [processList, hget, hexecS]
      exact hrecS
  | cons₂ p hsl2 ih =>
    intro hlS tempN nextN tempS nextS bN tN nN h1 h2 h3 h4 h5 h6 h7 h8 hsub hN
    have hp : p < program.length := hlS p (by simp)
    obtain ⟨inst, hget⟩ : ∃ inst, program.get? p = some inst := by
      rw [List.get?_eq_getElem?]
      exact ⟨program[p], List.getElem?_eq_getElem hp⟩
    obtain ⟨bNi, tN1, nN1, hexecN, hextN, -, -⟩ :=
      execInst_spec hvalid hget none tempN nextN h1 h2 h3 h4
    obtain ⟨g1, g2, g3, g4, g5, g6, g7, g8, g9, g10, g11⟩ := hextN
    obtain ⟨bSi, tS1, nS1, hexecS, hextS, -, -⟩ :=
      execInst_spec hvalid hget (some c) tempS nextS h5 h6 h7 h8
    obtain ⟨f1, f2, f3, f4, f5, f6, f7, f8, f9, f10, f11⟩ := hextS
    have hlen : tempN.threads.length = tempS.threads.length := by
      rw [h2.1, h6.1, h1, h5]
    have htmono := execInst_temp_mono (h1.trans h5.symm) hlen hsub hexecN hexecS
    cases bNi with
    | true =>
      have hbSi : bSi = true := f11.2 (g11.1 rfl)
      subst hbSi
      simp only [processList, hget, hexecN, Option.some.injEq, Prod.mk.injEq] at hN
      obtain ⟨rfl, rfl, rfl⟩ := hN
      refine ⟨true, tS1, nS1, ?_, fun _ => rfl, fun h => Bool.noConfusion h⟩
      simp only [processList, hget, hexecS]
    | false =>
      have hbSi : bSi = false := by
        cases hb : bSi with
        | false => rfl
        | true => exact absurd (g11.2 (f11.1 hb)) (by simp)
      subst hbSi
      simp only [processList, hget, hexecN] at hN
      obtain ⟨bS, tS, nS, hrecS, hbt, hbf⟩ :=
        ih (fun x hx => hlS x (by simp [hx])) tN1 nN1 tS1 nS1 bN tN nN
          (g1.trans h1) (g5 h2) (g2.trans h3) (g6 h4)
          (f1.trans h5) (f5 h6) (f2.trans h7) (f6 h8)
          htmono hN
      refine ⟨bS, tS, nS, ?_, hbt, hbf⟩
      simp only [processList, hget, hexecS]
      exact hrecS

/-- State invariant of the epsilon loop at quiescence: the swapped-in next
list has the program-length capacity, is well formed, and records only
in-range pcs. -/
theorem epsilonLoop_ok_some_props {program : List Instruction}
    (hvalid : validProgram program) (hmod : program.length % 64 ≠ 0)
    (input_char : Option Symbol) :
    ∀ (fuel : Nat) (current next out : ThreadList),
      current.size = program.length → wfTL current →
      (∀ q, memBit current q = true → q < program.length) →
      next.size = program.length → wfTL next →
      (∀ q, memBit next q = true → q < program.length) →
      epsilonLoop program input_char fuel current next = .ok (some out) →
      out.size = program.length ∧ wfTL out ∧
        ∀ q, memBit out q = true → q < program.length := by
  intro fuel
  induction fuel with
  | zero =>
    intro current next out hsz hwf hbits hns hwn hnbits hrun
    rw [epsilonLoop.eq_def] at hrun
    by_cases hempty : current.is_empty = true
    · rw [if_pos hempty] at hrun
      obtain rfl := Option.some.inj (VMRes.ok.inj hrun)
      exact ⟨hns, hwn, hnbits⟩
    · rw [if_neg hempty] at hrun
      exact VMRes.noConfusion hrun
  | succ f ih =>
    intro current next out hsz hwf hbits hns hwn hnbits hrun
    by_cases hempty : current.is_empty = true
    · rw [epsilonLoop.eq_def, if_pos hempty] at hrun
      obtain rfl := Option.some.inj (VMRes.ok.inj hrun)
      exact ⟨hns, hwn, hnbits⟩
    · obtain ⟨l, hiter, hpw, hmem⟩ :=
        iterFrom_spec hwf (by rw [hsz]; exact hmod)
          (fun q hq => by rw [hsz]; exact hbits q hq)
          (current.size + 1) 0 (by omega)
      have hR := dispatchFrom_eq_processList program input_char current
        (current.size + 1) 0 (ThreadList.new program.length) next l hiter
      have hl_lt : ∀ pc ∈ l, pc < program.length := by
        intro p hp
        exact hbits p ((hmem p).1 hp).1
      obtain ⟨b, t, n, hproc, hts, hwt, hns2, hwn2, hchar, hcharn⟩ :=
        processList_spec hvalid input_char l (ThreadList.new program.length) next
          hl_lt rfl (wfTL_new _) hns hwn
      rw [epsilonLoop_unfold_succ hempty, hR] at hrun
      cases b with
      | true =>
        simp only [hproc] at hrun
        exact absurd (VMRes.ok.inj hrun) (by simp)
      | false =>
        simp only [hproc] at hrun
        refine ih t n out hts hwt ?_ hns2 hwn2 ?_ hrun
        · intro q hq
          rcases hchar q hq with hq | ⟨p, hp, inst, hget, hsucc⟩
          · rw [memBit_new] at hq
            cases hq
          · exact epsSuccs_lt hvalid hget q hsucc
        · intro q hq
          rcases hcharn q hq with hq | ⟨p, hp, inst, hget, hsucc⟩
          · exact hnbits q hq
          · exact consSuccs_lt hvalid hget q hsucc

/-- Loop-level monotonicity: if the no-input epsilon loop reports a match
from a current list, then the with-input loop reports a match from any
larger current list of the same capacity, within the same fuel. -/
theorem epsilonLoop_pair_mono {program : List Instruction}
    (hvalid : validProgram program) (hmod : program.length % 64 ≠ 0) (c : Symbol) :
    ∀ (fuel : Nat) (curN curS nextN nextS : ThreadList),
      curN.size = program.length → wfTL curN →
      (∀ q, memBit curN q = true → q < program.length) →
      nextN.size = program.length → wfTL nextN →
      curS.size = program.length → wfTL curS →
      (∀ q, memBit curS q = true → q < program.length) →
      nextS.size = program.length → wfTL nextS →
      (∀ q, memBit curN q = true → memBit curS q = true) →
      epsilonLoop program none fuel curN nextN = .ok none →
      epsilonLoop program (some c) fuel curS nextS = .ok none := by
  intro fuel
  induction fuel with
  | zero =>
    intro curN curS nextN nextS h1 h2 h3 h4 h5 h6 h7 h8 h9 h10 hsub hN
    rw [epsilonLoop.eq_def] at hN
    by_cases hempty : curN.is_empty = true
    · rw [if_pos hempty] at hN
      exact absurd (VMRes.ok.inj hN) (by simp)
    · rw [if_neg hempty] at hN
      exact VMRes.noConfusion hN
  | succ f ih =>
    intro curN curS nextN nextS h1 h2 h3 h4 h5 h6 h7 h8 h9 h10 hsub hN
    by_cases hemptyN : curN.is_empty = true
    · rw [epsilonLoop.eq_def, if_pos hemptyN] at hN
      exact absurd (VMRes.ok.inj hN) (by simp)
    · have hemptyS : ¬ curS.is_empty = true := by
        intro hS
        obtain ⟨q, hq⟩ := exists_memBit_of_not_is_empty h2 (by
          cases h : curN.is_empty
          · rfl
          · exact absurd h hemptyN)
        have hfalse := (is_empty_iff_no_memBit h7).1 hS q
        rw [hsub q hq] at hfalse
        cases hfalse
      obtain ⟨lN, hiterN, hpwN, hmemN⟩ :=
        iterFrom_spec h2 (by rw [h1]; exact hmod)
          (fun q hq => by rw [h1]; exact h3 q hq) (curN.size + 1) 0 (by omega)
      obtain ⟨lS, hiterS, hpwS, hmemS⟩ :=
        iterFrom_spec h7 (by rw [h6]; exact hmod)
          (fun q hq => by rw [h6]; exact h8 q hq) (curS.size + 1) 0 (by omega)
      have hRN := dispatchFrom_eq_processList program none curN
        (curN.size + 1) 0 (ThreadList.new program.length) nextN lN hiterN
      have hRS := dispatchFrom_eq_processList program (some c) curS
        (curS.size + 1) 0 (ThreadList.new program.length) nextS lS hiterS
      have hsl : lN.Sublist lS :=
        pairwise_lt_sublist_of_subset hpwN hpwS (by
          intro x hx
          have hmx := (hmemN x).1 hx
          exact (hmemS x).2 ⟨hsub x hmx.1, by omega⟩)
      have hlS_lt : ∀ pc ∈ lS, pc < program.length := fun p hp =>
        h8 p ((hmemS p).1 hp).1
      have hlN_lt : ∀ pc ∈ lN, pc < program.length := fun p hp =>
        h3 p ((hmemN p).1 hp).1
      obtain ⟨bN, tN, nN, hprocN, htsN, hwtN, hnsN, hwnN, hcharN, hcharnN⟩ :=
        processList_spec hvalid none lN (ThreadList.new program.length) nextN
          hlN_lt rfl (wfTL_new _) h4 h5
      obtain ⟨bS0, tS0, nS0, hprocS, htsS, hwtS, hnsS, hwnS, hcharS, hcharnS⟩ :=
        processList_spec hvalid (some c) lS (ThreadList.new program.length) nextS
          hlS_lt rfl (wfTL_new _) h9 h10
      obtain ⟨bS, tS, nS, hprocS', hbt, hbf⟩ :=
        processList_pair_mono hvalid c hsl hlS_lt
          (ThreadList.new program.length) nextN (ThreadList.new program.length) nextS
          bN tN nN rfl (wfTL_new _) h4 h5 rfl (wfTL_new _) h9 h10
          (fun q hq => by rw [memBit_new] at hq; cases hq) hprocN
      rw [hprocS] at hprocS'
      have hpair := Option.some.inj hprocS'
      rw [Prod.mk.injEq, Prod.mk.injEq] at hpair
      obtain ⟨rfl, rfl, rfl⟩ := hpair
      rw [epsilonLoop_unfold_succ hemptyS, hRS]
      rw [epsilonLoop_unfold_succ hemptyN, hRN] at hN
      cases bN with
      | true =>
        have hbS : bS0 = true := hbt rfl
        subst hbS
        simp only [hprocS]
      | false =>
        simp only [hprocN] at hN
        cases bS0 with
        | true =>
          simp only [hprocS]
        | false =>
          obtain ⟨-, hsubT⟩ := hbf rfl
          simp only [hprocS]
          refine ih tN tS0 nN nS0 htsN hwtN ?_ hnsN hwnN htsS hwtS ?_ hnsS hwnS hsubT hN
          · intro q hq
            rcases hcharN q hq with hq | ⟨p, hp, inst, hget, hsucc⟩
            · rw [memBit_new] at hq
              cases hq
            · exact epsSuccs_lt hvalid hget q hsucc
          · intro q hq
            rcases hcharS q hq with hq | ⟨p, hp, inst, hget, hsucc⟩
            · rw [memBit_new] at hq
              cases hq
            · exact epsSuccs_lt hvalid hget q hsucc

theorem execution_step_none_eq (program : List Instruction) (fuel : Nat)
    (cur : ThreadList) :
    execution_step program fuel none cur =
      match epsilonLoop program none fuel cur (ThreadList.new program.length) with
      | .panicked => .panicked
      | .fuelOut => .fuelOut
      | .ok none => .ok (true, cur)
      | .ok (some next2) => .ok (false, next2) := rfl

theorem execution_step_some_eq (program : List Instruction) (fuel : Nat)
    (c : Symbol) (cur : ThreadList) :
    execution_step program fuel (some c) cur =
      match cur.add_thread 0 with
      | none => .panicked
      | some seeded =>
          match epsilonLoop program (some c) fuel seeded
              (ThreadList.new program.length) with
          | .panicked => .panicked
          | .fuelOut => .fuelOut
          | .ok none => .ok (true, seeded)
          | .ok (some next2) => .ok (false, next2) := rfl

/-- An execution step that matches with no input symbol also matches when an
input symbol is present: seeding pc 0 only grows the thread list, and a
larger list still reaches the match. -/
theorem execution_step_pair {program : List Instruction}
    (hvalid : validProgram program) (hmod : program.length % 64 ≠ 0)
    (c : Symbol) (fuel : Nat) (cur x : ThreadList)
    (hsz : cur.size = program.length) (hwf : wfTL cur)
    (hbits : ∀ q, memBit cur q = true → q < program.length)
    (hN : execution_step program fuel none cur = .ok (true, x)) :
    ∃ y, execution_step program fuel (some c) cur = .ok (true, y) := by
  have hpos : 0 < program.length := by
    rcases program with _ | ⟨i, p'⟩
    · exact absurd hvalid.2 (by simp)
    · simp
  rw [execution_step_none_eq] at hN
  cases hloop : epsilonLoop program none fuel cur (ThreadList.new program.length) with
  | panicked =>
    simp only [hloop] at hN
    exact VMRes.noConfusion hN
  | fuelOut =>
    simp only [hloop] at hN
    exact VMRes.noConfusion hN
  | ok r =>
    cases r with
    | some n2 =>
      simp only [hloop] at hN
      exact absurd (VMRes.ok.inj hN) (by simp)
    | none =>
      obtain ⟨seeded, hseed⟩ := add_thread_total hwf (by rw [hsz]; exact hmod) 0
      obtain ⟨hszS, hlenS, hwfS, hpresS, hnewS⟩ := add_thread_some_spec hseed
      have hbitsS : ∀ q, memBit seeded q = true → q < program.length := by
        intro q hq
        rcases hnewS q hq with hq | ⟨rfl, -⟩
        · exact hbits q hq
        · exact hpos
      have hSloop : epsilonLoop program (some c) fuel seeded
          (ThreadList.new program.length) = .ok none :=
        epsilonLoop_pair_mono hvalid hmod c fuel cur seeded
          (ThreadList.new program.length) (ThreadList.new program.length)
          hsz hwf hbits rfl (wfTL_new _) (hszS.trans hsz) (hwfS hwf) hbitsS
          rfl (wfTL_new _) hpresS hloop
      refine ⟨seeded, ?_⟩
      rw [execution_step_some_eq]
      simp only [hseed, hSloop]

/-- A non-matching execution step preserves the executor-state invariant:
program-length capacity, well-formedness, in-range recorded pcs. -/
theorem execution_step_false_props {program : List Instruction}
    (hvalid : validProgram program) (hmod : program.length % 64 ≠ 0)
    (input_char : Option Symbol) (fuel : Nat) (cur cur2 : ThreadList)
    (hsz : cur.size = program.length) (hwf : wfTL cur)
    (hbits : ∀ q, memBit cur q = true → q < program.length)
    (h : execution_step program fuel input_char cur = .ok (false, cur2)) :
    cur2.size = program.length ∧ wfTL cur2 ∧
      ∀ q, memBit cur2 q = true → q < program.length := by
  have hnewbits : ∀ q, memBit (ThreadList.new program.length) q = true →
      q < program.length := by
    intro q hq
    rw [memBit_new] at hq
    cases hq
  cases input_char with
  | none =>
    rw [execution_step_none_eq] at h
    cases hloop : epsilonLoop program none fuel cur (ThreadList.new program.length) with
    | panicked =>
      simp only [hloop] at h
      exact VMRes.noConfusion h
    | fuelOut =>
      simp only [hloop] at h
      exact VMRes.noConfusion h
    | ok r =>
      cases r with
      | none =>
        simp only [hloop] at h
        exact absurd (VMRes.ok.inj h) (by simp)
      | some n2 =>
        simp only [hloop] at h
        have hpair := VMRes.ok.inj h
        rw [Prod.mk.injEq] at hpair
        obtain ⟨-, rfl⟩ := hpair
        exact epsilonLoop_ok_some_props hvalid hmod none fuel cur
          (ThreadList.new program.length) n2 hsz hwf hbits rfl (wfTL_new _)
          hnewbits hloop
  | some c =>
    have hpos : 0 < program.length := by
      rcases program with _ | ⟨i, p'⟩
      · exact absurd hvalid.2 (by simp)
      · simp
    rw [execution_step_some_eq] at h
    cases hseed : cur.add_thread 0 with
    | none =>
      simp only [hseed] at h
      exact VMRes.noConfusion h
    | some seeded =>
      simp only [hseed] at h
      obtain ⟨hszS, hlenS, hwfS, hpresS, hnewS⟩ := add_thread_some_spec hseed
      have hbitsS : ∀ q, memBit seeded q = true → q < program.length := by
        intro q hq
        rcases hnewS q hq with hq | ⟨rfl, -⟩
        · exact hbits q hq
        · exact hpos
      cases hloop : epsilonLoop program (some c) fuel seeded
          (ThreadList.new program.length) with
      | panicked =>
        simp only [hloop] at h
        exact VMRes.noConfusion h
      | fuelOut =>
        simp only [hloop] at h
        exact VMRes.noConfusion h
      | ok r =>
        cases r with
        | none =>
          simp only [hloop] at h
          exact absurd (VMRes.ok.inj h) (by simp)
        | some n2 =>
          simp only [hloop] at h
          have hpair := VMRes.ok.inj h
          rw [Prod.mk.injEq] at hpair
          obtain ⟨-, rfl⟩ := hpair
          exact epsilonLoop_ok_some_props hvalid hmod (some c) fuel seeded
            (ThreadList.new program.length) n2 (hszS.trans hsz) (hwfS hwf) hbitsS
            rfl (wfTL_new _) hnewbits hloop

/-- Appending input preserves a reported match, at the level of `run`. -/
theorem run_append_mono {program : List Instruction}
    (hvalid : validProgram program) (hmod : program.length % 64 ≠ 0) (fuel : Nat) :
    ∀ (s t : List Symbol) (cur : ThreadList),
      cur.size = program.length → wfTL cur →
      (∀ q, memBit cur q = true → q < program.length) →
      run program fuel s cur = .ok true →
      run program fuel (s ++ t) cur = .ok true := by
  intro s
  induction s with
  | nil =>
    intro t cur hsz hwf hbits hrun
    cases t with
    | nil => simpa using hrun
    | cons c rest =>
      rw [run] at hrun
      cases hstep : execution_step program fuel none cur with
      | panicked =>
        simp only [hstep] at hrun
        exact VMRes.noConfusion hrun
      | fuelOut =>
        simp only [hstep] at hrun
        exact VMRes.noConfusion hrun
      | ok bx =>
        obtain ⟨b, x⟩ := bx
        cases b with
        | false =>
          simp only [hstep] at hrun
          exact absurd (VMRes.ok.inj hrun) (by simp)
        | true =>
          obtain ⟨y, hy⟩ :=
            execution_step_pair hvalid hmod c fuel cur x hsz hwf hbits hstep
          show run program fuel (c :: rest) cur = .ok true
          rw [run]
          simp only [hy]
  | cons a s' ih =>
    intro t cur hsz hwf hbits hrun
    rw [run] at hrun
    cases hstep : execution_step program fuel (some a) cur with
    | panicked =>
      simp only [hstep] at hrun
      exact VMRes.noConfusion hrun
    | fuelOut =>
      simp only [hstep] at hrun
      exact VMRes.noConfusion hrun
    | ok bx =>
      obtain ⟨b, cur2⟩ := bx
      cases b with
      | true =>
        show run program fuel (a :: (s' ++ t)) cur = .ok true
        rw [run]
        simp only [hstep]
      | false =>
        simp only [hstep] at hrun
        obtain ⟨p1, p2, p3⟩ :=
          execution_step_false_props hvalid hmod (some a) fuel cur cur2
            hsz hwf hbits hstep
        show run program fuel (a :: (s' ++ t)) cur = .ok true
        rw [run]
        simp only [hstep]
        exact ih t cur2 p1 p2 p3 hrun

/-! ### Append preservation without the capacity proviso: at lengths that
are multiples of 64, a dispatch scan that fails to fire `Match` always
panics (the C7 iterator bug), so a reported match can only come from an
early `Match` return, which appending input cannot disturb. -/

theorem is_empty_new (capacity : Nat) : (ThreadList.new capacity).is_empty = true :=
  (is_empty_iff_no_memBit (wfTL_new capacity)).2 (memBit_new capacity)

/-- When the capacity is a multiple of 64, the fused dispatch loop can never
return `false`: every recursive call keeps `index ≤ size`, so the scan ends
either with an early `Match` return or at the out-of-bounds word read
`threads[size / 64]` (the panic of C7), never at the `index > size` exit. -/
theorem dispatchFrom_no_false {program : List Instruction} {ic : Option Symbol}
    {current : ThreadList} (hwf : wfTL current) {L : Nat}
    (hsz : current.size = L) (hmod : L % 64 = 0) :
    ∀ gas index temp next b t n,
      index ≤ current.size →
      dispatchFrom program ic current gas index temp next = some (b, t, n) →
      b = true := by
  intro gas
  induction gas with
  | zero =>
    intro index temp next b t n hidx hd
    rw [dispatchFrom, if_pos hidx] at hd
    exact Option.noConfusion hd
  | succ gas ih =>
    intro index temp next b t n hidx hd
    cases hw : current.threads[index / 64]? with
    | none =>
      rw [dispatchFrom, if_pos hidx] at hd
      simp only [List.get?_eq_getElem?, hw] at hd
      exact Option.noConfusion hd
    | some w =>
      have hwlt : w < 2 ^ 64 := hwf.2 w (List.getElem?_mem hw)
      have hklen : index / 64 < current.threads.length :=
        (List.getElem?_eq_some_iff.1 hw).1
      have hlen := hwf.1
      rw [hsz] at hlen
      have hklt : index / 64 < L / 64 := by omega
      rw [dispatchFrom_unfold hidx hw] at hd
      by_cases hr : w >>> (index - index / 64 * 64) = 0
      · rw [if_pos hr] at hd
        refine ih _ _ _ _ _ _ ?_ hd
        rw [hsz]
        omega
      · rw [if_neg hr] at hd
        have hrlt : w >>> (index - index / 64 * 64)
            < 2 ^ (64 - (index - index / 64 * 64)) := by
          refine shiftRight_lt_two_pow ?_
          rw [show (index - index / 64 * 64) + (64 - (index - index / 64 * 64)) = 64
            from by omega]
          exact hwlt
        have htlt : trailingZeros (w >>> (index - index / 64 * 64))
            < 64 - (index - index / 64 * 64) :=
          trailingZeros_lt_of_lt_two_pow hr hrlt
        cases hget : program.get? (trailingZeros (w >>> (index - index / 64 * 64)) +
            (index - index / 64 * 64) + index / 64 * 64) with
        | none =>
          simp only [hget] at hd
          exact Option.noConfusion hd
        | some inst =>
          cases hexec : execInst inst (trailingZeros (w >>> (index - index / 64 * 64)) +
              (index - index / 64 * 64) + index / 64 * 64) ic temp next with
          | none =>
            simp only [hget, hexec] at hd
            exact Option.noConfusion hd
          | some r =>
            obtain ⟨b2, t2, n2⟩ := r
            cases b2 with
            | true =>
              simp only [hget, hexec] at hd
              have hpair := Option.some.inj hd
              rw [Prod.mk.injEq, Prod.mk.injEq] at hpair
              exact hpair.1.symm
            | false =>
              simp only [hget, hexec] at hd
              refine ih _ _ _ _ _ _ ?_ hd
              rw [hsz]
              omega

/-- At capacities that are multiples of 64, the epsilon loop never reaches
quiescence from a nonempty current list: its dispatch either fires `Match`
or panics. -/
theorem epsilonLoop_no_quiescence {program : List Instruction} {ic : Option Symbol}
    {L : Nat} (hmod : L % 64 = 0) (fuel : Nat)
    (current next out : ThreadList) (hsz : current.size = L) (hwf : wfTL current)
    (hne : ¬ current.is_empty = true) :
    epsilonLoop program ic fuel current next ≠ .ok (some out) := by
  intro hrun
  cases fuel with
  | zero =>
    rw [epsilonLoop.eq_def, if_neg hne] at hrun
    exact VMRes.noConfusion hrun
  | succ f =>
    rw [epsilonLoop_unfold_succ hne] at hrun
    cases hd : dispatchFrom program ic current (current.size + 1) 0
        (ThreadList.new program.length) next with
    | none =>
      simp only [hd] at hrun
      exact VMRes.noConfusion hrun
    | some r =>
      obtain ⟨b, t, n⟩ := r
      cases b with
      | true =>
        simp only [hd] at hrun
        exact absurd (VMRes.ok.inj hrun) (by simp)
      | false =>
        exact Bool.noConfusion
          (dispatchFrom_no_false hwf hsz hmod (current.size + 1) 0
            (ThreadList.new program.length) next false t n (Nat.zero_le _) hd)

/-- At program lengths that are multiples of 64, a seeded execution step
never returns `(false, _)`: the seeded list is nonempty, so its loop either
fires `Match` at once or panics, never quiescing. -/
theorem execution_step_new_not_false {program : List Instruction}
    (hvalid : validProgram program) (hmod : program.length % 64 = 0)
    (c : Symbol) (fuel : Nat) (cur2 : ThreadList) :
    execution_step program fuel (some c) (ThreadList.new program.length)
      ≠ .ok (false, cur2) := by
  intro h
  have hpos : 0 < program.length := by
    rcases program with _ | ⟨i, p'⟩
    · exact absurd hvalid.2 (by simp)
    · simp
  obtain ⟨seeded, hseed, hszS, hlenS, hwfS, hbitsS⟩ :=
    add_thread_lt_spec (wfTL_new program.length)
      (show (0 : Nat) < (ThreadList.new program.length).size from hpos)
  have hbit0 : memBit seeded 0 = true := by
    rw [hbitsS 0]
    simp
  have hne : ¬ seeded.is_empty = true := by
    intro he
    have h0 := (is_empty_iff_no_memBit hwfS).1 he 0
    rw [hbit0] at h0
    cases h0
  rw [execution_step_some_eq] at h
  simp only [hseed] at h
  cases hloop : epsilonLoop program (some c) fuel seeded
      (ThreadList.new program.length) with
  | panicked =>
    simp only [hloop] at h
    exact VMRes.noConfusion h
  | fuelOut =>
    simp only [hloop] at h
    exact VMRes.noConfusion h
  | ok r =>
    cases r with
    | none =>
      simp only [hloop] at h
      exact absurd (VMRes.ok.inj h) (by simp)
    | some out =>
      exact epsilonLoop_no_quiescence hmod fuel seeded
        (ThreadList.new program.length) out hszS hwfS hne hloop

/-- Appending input preserves a reported match when the program length is a
multiple of 64: the empty input never matches, and on nonempty input the
first seeded step must itself fire `Match` (it cannot return `(false, _)`),
which the extended run replays identically. -/
theorem run_append_mono_mod64 {program : List Instruction}
    (hvalid : validProgram program) (hmod : program.length % 64 = 0) (fuel : Nat)
    (s t : List Symbol)
    (hrun : run program fuel s (ThreadList.new program.length) = .ok true) :
    run program fuel (s ++ t) (ThreadList.new program.length) = .ok true := by
  cases s with
  | nil =>
    exfalso
    rw [run, execution_step_none_eq] at hrun
    have hloop : epsilonLoop program none fuel (ThreadList.new program.length)
        (ThreadList.new program.length)
        = .ok (some (ThreadList.new program.length)) := by
      rw [epsilonLoop.eq_def, if_pos (is_empty_new program.length)]
    simp only [hloop] at hrun
    exact absurd (VMRes.ok.inj hrun) (by simp)
  | cons c s' =>
    rw [run] at hrun
    cases hstep : execution_step program fuel (some c)
        (ThreadList.new program.length) with
    | panicked =>
      simp only [hstep] at hrun
      exact VMRes.noConfusion hrun
    | fuelOut =>
      simp only [hstep] at hrun
      exact VMRes.noConfusion hrun
    | ok bx =>
      obtain ⟨b, cur2⟩ := bx
      cases b with
      | false =>
        exact absurd hstep (execution_step_new_not_false hvalid hmod c fuel cur2)
      | true =>
        show run program fuel (c :: (s' ++ t)) (ThreadList.new program.length)
          = .ok true
        rw [run]
        simp only [hstep]

/-- C10, amended: appending input symbols never destroys a match, PROVIDED
the program is valid (in-range branch destinations, final instruction
`Match`).  Without the validity proviso the claim fails: on the unvalidated
7-instruction program of the counterexample, `search` matches "w" but panics
on "wx" (the out-of-range pc `|p|` accepted by `add_thread`'s off-by-one
guard is fed to `self.program[pc]`), so the extended search reports no match
at all.  Under validity, if `search(p, s)` reports a match then so does
`search(p, s ++ t)`, with the same iteration fuel: at lengths that are not
multiples of 64 the extended run is monotone over the original, and at
multiples of 64 a match can only ever be reported by the very first seeded
dispatch (any completed non-matching scan panics), which the extended run
replays identically. -/
theorem search_append_preserves_match (program : List Instruction) (fuel : Nat)
    (s t : List Symbol) (hvalid : validProgram program)
    (hmatch : search program fuel s = .ok true) :
    search program fuel (s ++ t) = .ok true := by
  by_cases hmod : program.length % 64 = 0
  · exact run_append_mono_mod64 hvalid hmod fuel s t hmatch
  · exact run_append_mono hvalid hmod fuel s t (ThreadList.new program.length) rfl
      (wfTL_new _) (fun q hq => by rw [memBit_new] at hq; cases hq) hmatch

theorem search_append_preserves_match_witness :
    validProgram [Instruction.Match] ∧
    search [Instruction.Match] 2 ['a'] = .ok true ∧
    search [Instruction.Match] 2 (['a'] ++ ['b']) = .ok true :=
  ⟨by decide, by decide,
    search_append_preserves_match [Instruction.Match] 2 ['a'] ['b'] (by decide)
      (by decide)⟩

end RegexVM
